import Mathlib

/-
Verification of the inwire dependency-injection core: a shallow embedding of
the Resolver (src/src/infrastructure/resolver.ts), CycleDetector and
DependencyTracker (src/src/infrastructure), the Preloader with its
topologicalLevels function (src/src/application/preloader.ts), the Disposer,
and the scope/extend composition (src/src/application/container-proxy.ts).

Modelling conventions:
* JavaScript `Map`s (insertion-ordered) are association lists `List (Key × α)`;
  `Map.set` keeps the position of an existing key and appends a new one.
* JavaScript `Set`s are lists with set semantics (membership-guarded insert).
* A user factory is modelled by `FactorySpec`: the ordered list of keys the
  factory accesses through the tracking proxy, its transient marker, and flags
  describing its observable behaviour (returning undefined, throwing, and the
  lifecycle hooks carried by the produced instance).  A produced value is an
  `Instance` with a fresh identity drawn from a per-resolver counter, so value
  identity (`===` in the source) is identity of `Instance.id`.
* Synchronous exceptions are `Except`; recursion through user factories is
  bounded by explicit fuel (the source recursion terminates on the same
  inputs, fuel merely makes the embedding total).
* Ghost event logs (`runLog`, `initLog`, `destroyLog`) record factory
  invocations and lifecycle-hook invocations so that "the factory ran exactly
  once" style properties are stated about observable histories.
* The parent chain of a scoped resolver is passed explicitly: an operation on
  a resolver `s` with ancestor states `anc` returns the updated `(s, anc)`.
-/

set_option maxRecDepth 8000

namespace Inwire

abbrev Key := String

instance {ε α : Type} [DecidableEq ε] [DecidableEq α] : DecidableEq (Except ε α) :=
  fun a b =>
    match a, b with
    | Except.ok x, Except.ok y =>
      match decEq x y with
      | isTrue h => isTrue (by rw [h])
      | isFalse h => isFalse (fun hh => by cases hh; exact h rfl)
    | Except.error x, Except.error y =>
      match decEq x y with
      | isTrue h => isTrue (by rw [h])
      | isFalse h => isFalse (fun hh => by cases hh; exact h rfl)
    | Except.ok _, Except.error _ => isFalse (fun hh => by cases hh)
    | Except.error _, Except.ok _ => isFalse (fun hh => by cases hh)

/-- Lookup in an insertion-ordered association list (JavaScript `Map.get`). -/
def lookupA {α : Type} (k : Key) : List (Key × α) → Option α
  | [] => none
  | (k', v) :: rest => if k = k' then some v else lookupA k rest

/-- Update/insert in an association list (JavaScript `Map.set`): an existing
key keeps its position, a new key is appended. -/
def setA {α : Type} (k : Key) (v : α) : List (Key × α) → List (Key × α)
  | [] => [(k, v)]
  | (k', v') :: rest => if k = k' then (k, v) :: rest else (k', v') :: setA k v rest

/-- The key list of an association list (JavaScript `Map.keys`). -/
def keysOfA {α : Type} (m : List (Key × α)) : List Key := m.map Prod.fst

/-- Insertion-order deduplication (building a JavaScript `Set` from a list). -/
def dedupKeys (l : List Key) : List Key :=
  l.foldl (fun acc k => if k ∈ acc then acc else acc ++ [k]) []

/-- A resolved value.  `id` is its identity (reference equality in the
source); `depIds` are the identities the factory read through the tracking
proxy; the flags describe its `onInit`/`onDestroy` duck-typed hooks
(src/src/domain/lifecycle.ts) and whether those hooks throw synchronously. -/
structure Instance where
  id : Nat
  depIds : List Nat
  hasInit : Bool
  initThrows : Bool
  hasDestroy : Bool
  destroyThrows : Bool
deriving DecidableEq, Repr, Inhabited

/-- A registered factory: the keys its body accesses (in access order,
duplicates meaning repeated accesses), the transient marker
(src/src/infrastructure/transient.ts), and the behaviour of the body and of
the produced instance. -/
structure FactorySpec where
  deps : List Key
  transient : Bool
  retUndefined : Bool
  fThrows : Bool
  hasInit : Bool
  initThrows : Bool
  hasDestroy : Bool
  destroyThrows : Bool
deriving DecidableEq, Repr

/-- Diagnostic warnings (src/src/domain/errors.ts): a singleton depending on
a transient, or a failed asynchronous init hook. -/
inductive Warning
  | scopeMismatch (singletonKey depKey : Key)
  | asyncInitError (key : Key)
deriving DecidableEq, Repr

/-- The resolution failure taxonomy of `Resolver.resolve`
(src/src/infrastructure/resolver.ts): ProviderNotFoundError (carrying the
chain and all registered keys), CircularDependencyError (carrying the chain),
UndefinedReturnError, FactoryError.  `outOfFuel` is an artifact of the
bounded embedding and never occurs with sufficient fuel. -/
inductive ResolveError
  | notFound (key : Key) (chain : List Key) (allKeys : List Key)
  | circular (key : Key) (chain : List Key)
  | undefinedReturn (key : Key) (chain : List Key)
  | factoryFailure (key : Key) (chain : List Key)
  | outOfFuel
deriving DecidableEq, Repr

/-- The mutable state of one `Resolver` (src/src/infrastructure/resolver.ts)
together with its collaborators: `resolving` is the CycleDetector's set,
`depGraph` the DependencyTracker's stored graph.  `runLog`, `initLog` and
`destroyLog` are ghost histories of factory invocations, init-hook
invocations and destroy-hook invocations. -/
structure ResolverState where
  factories : List (Key × FactorySpec)
  cache : List (Key × Instance)
  warnings : List Warning
  initCalled : List Key
  deferOnInit : Bool
  resolving : List Key
  depGraph : List (Key × List Key)
  nextId : Nat
  runLog : List Key
  initLog : List Key
  destroyLog : List Key
deriving DecidableEq, Repr

/-- `Resolver.getFactory`: look up a factory in this resolver or its parent
chain. -/
def getFactoryChain (k : Key) : ResolverState → List ResolverState → Option FactorySpec
  | s, anc =>
    match lookupA k s.factories with
    | some f => some f
    | none =>
      match anc with
      | [] => none
      | parent :: rest => getFactoryChain k parent rest

/-- `Resolver.getAllRegisteredKeys`: the set-union of registered keys of this
resolver and all its ancestors, in insertion order. -/
def getAllRegisteredKeys : ResolverState → List ResolverState → List Key
  | s, [] => dedupKeys (keysOfA s.factories)
  | s, parent :: rest => dedupKeys (keysOfA s.factories ++ getAllRegisteredKeys parent rest)

/-- One step of the tracking proxy (src/src/infrastructure/dependency-tracker.ts
lines 19-29) during a factory run: on access of key `d`, record it in the
dependency accumulator and resolve it recursively (through `rv`, the
resolver's `resolve` at the current fuel) with the extended chain; a failure
aborts the factory body and propagates.  The accumulator carries the resolved
identities so the produced instance can reference them. -/
def depStep
    (rv : ResolverState → List ResolverState → Key → List Key →
      (ResolverState × List ResolverState) × Except ResolveError Instance)
    (cchain : List Key)
    (acc : (ResolverState × List ResolverState) × Except ResolveError (List Nat))
    (d : Key) : (ResolverState × List ResolverState) × Except ResolveError (List Nat) :=
  match acc with
  | (st, Except.error e) => (st, Except.error e)
  | ((s', anc'), Except.ok ids) =>
    let r := rv s' anc' d cchain
    match r.2 with
    | Except.ok inst => (r.1, Except.ok (ids ++ [inst.id]))
    | Except.error e => (r.1, Except.error e)

/-- `Resolver.resolve(key, chain)`.  Faithful translation of
src/src/infrastructure/resolver.ts lines 56-132: cached-singleton fast path;
delegation to the parent when no local factory exists (NotFound at the root,
carrying `getAllRegisteredKeys`); cycle detection against the Resolving set;
factory execution through the tracking proxy (each accessed key is appended
to the dependency accumulator and resolved recursively with the extended
chain); the UndefinedReturn check; `recordDeps`; scope-mismatch warnings;
singleton caching; the guarded synchronous `onInit` launch (marked in
`initCalled` before the hook runs); FactoryError wrapping of user errors; and
the `finally` removal from the Resolving set on every exit path. -/
def resolve : Nat → ResolverState → List ResolverState → Key → List Key →
    (ResolverState × List ResolverState) × Except ResolveError Instance
  | 0, s, anc, _, _ => ((s, anc), Except.error ResolveError.outOfFuel)
  | fuel + 1, s, anc, key, chain =>
    match lookupA key s.factories with
    | none =>
      match anc with
      | parent :: rest =>
        let r := resolve fuel parent rest key chain
        ((s, r.1.1 :: r.1.2), r.2)
      | [] =>
        ((s, []), Except.error (ResolveError.notFound key chain (getAllRegisteredKeys s [])))
    | some f =>
      if f.transient = false ∧ (lookupA key s.cache).isSome = true then
        ((s, anc), Except.ok ((lookupA key s.cache).getD default))
      else if key ∈ s.resolving then
        ((s, anc), Except.error (ResolveError.circular key chain))
      else
        let s0 := { s with resolving := key :: s.resolving, runLog := s.runLog ++ [key] }
        let cchain := chain ++ [key]
        let folded := f.deps.foldl
          (depStep (fun s' anc' d cc => resolve fuel s' anc' d cc) cchain)
          ((s0, anc), Except.ok [])
        match folded with
        | ((s1, anc1), Except.error e) =>
          (({ s1 with resolving := s1.resolving.erase key }, anc1), Except.error e)
        | ((s1, anc1), Except.ok ids) =>
          if f.fThrows = true then
            (({ s1 with resolving := s1.resolving.erase key }, anc1),
              Except.error (ResolveError.factoryFailure key cchain))
          else if f.retUndefined = true then
            (({ s1 with resolving := s1.resolving.erase key }, anc1),
              Except.error (ResolveError.undefinedReturn key cchain))
          else
            let inst : Instance :=
              { id := s1.nextId, depIds := ids, hasInit := f.hasInit, initThrows := f.initThrows,
                hasDestroy := f.hasDestroy, destroyThrows := f.destroyThrows }
            let s2 := { s1 with nextId := s1.nextId + 1, depGraph := setA key f.deps s1.depGraph }
            let s3 :=
              if f.transient = true then s2
              else
                { s2 with warnings := s2.warnings ++ f.deps.filterMap (fun d =>
                    match getFactoryChain d s2 anc1 with
                    | some df =>
                      if df.transient = true then some (Warning.scopeMismatch key d) else none
                    | none => none) }
            let s4 := if f.transient = true then s3 else { s3 with cache := setA key inst s3.cache }
            if s4.deferOnInit = false ∧ ¬ key ∈ s4.initCalled ∧ inst.hasInit = true then
              let s5 := { s4 with initCalled := key :: s4.initCalled, initLog := s4.initLog ++ [key] }
              if inst.initThrows = true then
                (({ s5 with resolving := s5.resolving.erase key }, anc1),
                  Except.error (ResolveError.factoryFailure key cchain))
              else
                (({ s5 with resolving := s5.resolving.erase key }, anc1), Except.ok inst)
            else
              (({ s4 with resolving := s4.resolving.erase key }, anc1), Except.ok inst)

/-- `Resolver.callOnInit(key)` (src/src/infrastructure/resolver.ts lines
172-180): skip if already completed or not cached; invoke the hook if
present; mark completion only after the hook finished without throwing.  A
failing hook is reported as `Except.error key`. -/
def callOnInit (s : ResolverState) (key : Key) : ResolverState × Except Key Unit :=
  if key ∈ s.initCalled then (s, Except.ok ())
  else
    match lookupA key s.cache with
    | none => (s, Except.ok ())
    | some inst =>
      if inst.hasInit = true then
        let s1 := { s with initLog := s.initLog ++ [key] }
        if inst.initThrows = true then (s1, Except.error key)
        else ({ s1 with initCalled := key :: s1.initCalled }, Except.ok ())
      else ({ s with initCalled := key :: s.initCalled }, Except.ok ())

/-- The in-closure dependency occurrences of `k`: the recorded dependency
list filtered to the closure (`keys.has(dep)` in the source), duplicates
kept exactly as recorded. -/
def inClosureDeps (g : List (Key × List Key)) (keys : List Key) (k : Key) : List Key :=
  ((lookupA k g).getD []).filter (fun d => decide (d ∈ keys))

/-- Point update of a finite function (one `inDegree.set` of the source). -/
def updF (f : Key → Int) (k : Key) (v : Int) : Key → Int :=
  fun x => if x = k then v else f x

/-- Inner loop of one Kahn level (src/src/application/preloader.ts lines
33-39): decrement the in-degree of every dependent of the processed key,
enqueueing a dependent exactly when its in-degree reaches zero.  In-degrees
are JavaScript numbers, hence `Int` (they may go negative). -/
def decStep : (Key → Int) → List Key → List Key → (Key → Int) × List Key
  | inDeg, nx, [] => (inDeg, nx)
  | inDeg, nx, d :: ds =>
    let v := inDeg d - 1
    decStep (updF inDeg d v) (if v = 0 then nx ++ [d] else nx) ds

/-- Process one whole queue (one topological level): fold `decStep` over the
dependents of every key of the level. -/
def stepLevel (dependents : Key → List Key) : (Key → Int) → List Key → List Key → (Key → Int) × List Key
  | inDeg, nx, [] => (inDeg, nx)
  | inDeg, nx, k :: ks =>
    let r := decStep inDeg nx (dependents k)
    stepLevel dependents r.1 r.2 ks

/-- The `while (queue.length > 0)` loop of `topologicalLevels`: push the
current queue as the next level, process its out-edges, continue with the
newly freed keys.  Fuel bounds the number of levels (each nonempty level
strictly grows the set of placed keys, so `keys.length + 1` always
suffices). -/
def kahnLoop (dependents : Key → List Key) : Nat → (Key → Int) → List Key → List (List Key) → List (List Key)
  | 0, _, _, acc => acc
  | fuel + 1, inDeg, q, acc =>
    if q = [] then acc
    else kahnLoop dependents fuel (stepLevel dependents inDeg [] q).1
      (stepLevel dependents inDeg [] q).2 (acc ++ [q])

/-- The `dependents` map of the source, as a function: `dependentsOf g keys d`
lists each closure member `k` once per occurrence of `d` in `k`'s in-closure
dependency list, in closure iteration order. -/
def dependentsOf (g : List (Key × List Key)) (keys : List Key) (d : Key) : List Key :=
  (keys.map (fun k => List.replicate ((inClosureDeps g keys k).count d) k)).flatten

/-- The initial in-degree map: the number of in-closure dependency
occurrences of each key. -/
def inDegInit (g : List (Key × List Key)) (keys : List Key) : Key → Int :=
  fun k => ((inClosureDeps g keys k).length : Int)

/-- The complete Kahn run of `topologicalLevels`: initial queue of
zero-in-degree members, then the level loop. -/
def kahnRun (g : List (Key × List Key)) (keys : List Key) : List (List Key) :=
  kahnLoop (dependentsOf g keys) (keys.length + 1) (inDegInit g keys)
    (keys.filter (fun k => decide (inDegInit g keys k = 0))) []

/-- `topologicalLevels(depGraph, keys)` (src/src/application/preloader.ts
lines 7-53): Kahn's breadth-first layering; if fewer keys were placed than
the closure holds, fail with the incomplete-topological-sort error carrying
the unplaced keys. -/
def topologicalLevels (g : List (Key × List Key)) (keys : List Key) : Except (List Key) (List (List Key)) :=
  let levels := kahnRun g keys
  if levels.foldl (fun n l => n + l.length) 0 < keys.length then
    Except.error (keys.filter (fun k => decide (¬ k ∈ levels.flatten)))
  else Except.ok levels

/-- The `collectDeps` closure walk of `Preloader.preload` (lines 83-92):
depth-first collection of the transitive dependency closure of a key in
visit order, skipping already-collected keys. -/
def collectDeps (g : List (Key × List Key)) : Nat → Key → List Key → List Key
  | 0, _, acc => acc
  | fuel + 1, k, acc =>
    if k ∈ acc then acc
    else ((lookupA k g).getD []).foldl (fun a d => collectDeps g fuel d a) (acc ++ [k])

/-- Sequentially resolve a list of keys (the phase-one loop of
`Preloader.preload`, lines 68-70), stopping at the first failure. -/
def resolveSeq (fuel : Nat) : List Key → ResolverState → List ResolverState →
    (ResolverState × List ResolverState) × Except ResolveError Unit
  | [], s, anc => ((s, anc), Except.ok ())
  | k :: ks, s, anc =>
    let r := resolve fuel s anc k []
    match r.2 with
    | Except.error e => (r.1, Except.error e)
    | Except.ok _ => resolveSeq fuel ks r.1.1 r.1.2

/-- Failures of `Preloader.preload`: a propagated resolution failure, the
incomplete-topological-sort error, a single init-hook failure rethrown
directly, or the AggregateError wrapping two or more init failures. -/
inductive PreloadError
  | resolveFailed (e : ResolveError)
  | incompleteTopo (remaining : List Key)
  | initFailed (k : Key)
  | initAggregate (ks : List Key)
deriving DecidableEq, Repr

/-- Run the init-hook phase of `preload` (lines 95-101): `callOnInit` for
every member of every level in order, collecting failures.  The source
starts one level concurrently and awaits it with `Promise.allSettled`;
distinct keys touch disjoint state, so the sequential fold observes the same
states and the same collected failures. -/
def initLevels (s : ResolverState) (levels : List (List Key)) : ResolverState × List Key :=
  levels.foldl
    (fun p level =>
      level.foldl
        (fun p2 k =>
          let r := callOnInit p2.1 k
          match r.2 with
          | Except.ok _ => (r.1, p2.2)
          | Except.error ek => (r.1, p2.2 ++ [ek]))
        p)
    (s, [])

/-- `Preloader.preload(...keys)` (src/src/application/preloader.ts lines
62-109): enter deferred-init mode; resolve every requested key (all
registered keys when none are given); on failure evict the cache entries
created during this call and propagate; otherwise exit deferred mode,
collect the transitive closure, layer it with `topologicalLevels`, run the
init hooks level by level, and surface one failure directly or several as an
aggregate. -/
def preload (fuel : Nat) (s : ResolverState) (anc : List ResolverState) (keys : List Key) :
    (ResolverState × List ResolverState) × Except PreloadError Unit :=
  let toResolve := if keys = [] then keysOfA s.factories else keys
  let before := keysOfA s.cache
  let s0 := { s with deferOnInit := true }
  match resolveSeq fuel toResolve s0 anc with
  | ((s1, anc1), Except.error e) =>
    (({ s1 with
          deferOnInit := false,
          cache := s1.cache.filter (fun kv => decide (kv.1 ∈ before)) }, anc1),
      Except.error (PreloadError.resolveFailed e))
  | ((s1, anc1), Except.ok _) =>
    let s2 := { s1 with deferOnInit := false }
    let g := s2.depGraph
    let closure := toResolve.foldl
      (fun a k => collectDeps g (g.length + toResolve.length + 1) k a) []
    match topologicalLevels g closure with
    | Except.error rem => ((s2, anc1), Except.error (PreloadError.incompleteTopo rem))
    | Except.ok levels =>
      let r := initLevels s2 levels
      match r.2 with
      | [] => ((r.1, anc1), Except.ok ())
      | [e] => ((r.1, anc1), Except.error (PreloadError.initFailed e))
      | es => ((r.1, anc1), Except.error (PreloadError.initAggregate es))

/-- Failures of `Disposer.dispose`: one teardown error rethrown directly, or
the AggregateError wrapping two or more. -/
inductive DisposeError
  | single (k : Key)
  | aggregate (ks : List Key)
deriving DecidableEq, Repr

/-- The teardown loop of `Disposer.dispose` (src/unnamed/part_009): walk the
given (already reversed) cache entries, invoke `onDestroy` where present
(recorded in the ghost `destroyLog`), and collect the keys whose hook threw,
continuing past failures (the source wraps each call in try/catch). -/
def disposeLoop : List (Key × Instance) → ResolverState → ResolverState × List Key
  | [], s => (s, [])
  | (k, inst) :: rest, s =>
    if inst.hasDestroy = true then
      let r := disposeLoop rest { s with destroyLog := s.destroyLog ++ [k] }
      (r.1, (if inst.destroyThrows = true then [k] else []) ++ r.2)
    else disposeLoop rest s

/-- `Disposer.dispose()` (src/unnamed/part_009): tear down every cached
instance in reverse cache-insertion order, then clear the cache, the
init-completed set, the dependency graph and the warnings; surface exactly
one failure directly and two or more as an aggregate. -/
def dispose (s : ResolverState) : ResolverState × Except DisposeError Unit :=
  let r := disposeLoop s.cache.reverse s
  let s2 := { r.1 with cache := [], initCalled := [], depGraph := [], warnings := [] }
  match r.2 with
  | [] => (s2, Except.ok ())
  | [e] => (s2, Except.error (DisposeError.single e))
  | es => (s2, Except.error (DisposeError.aggregate es))

/-- `scope(extra)` (src/src/application/container-proxy.ts lines 80-94):
build a child resolver whose registry holds exactly the extra factories,
with a fresh cache, fresh collaborators and a parent pointer to the source.
The source is only read, never written; the pair returned is
(source after the call, child state).  The child's ancestor chain is
`src :: anc` of the source. -/
def scopeOp (src : ResolverState) (extra : List (Key × FactorySpec)) :
    ResolverState × ResolverState :=
  (src,
    { factories := extra, cache := [], warnings := [], initCalled := [],
      deferOnInit := false, resolving := [], depGraph := [], nextId := 0,
      runLog := [], initLog := [], destroyLog := [] })

/-- `extend(extra)` (src/src/application/container-proxy.ts lines 102-116):
build an independent resolver whose registry is the source registry merged
with the extra factories (extras override on collision), whose cache is a
snapshot copy of the source cache, and whose init-completed set is copied by
the Resolver constructor; warnings, dependency graph and cycle state start
fresh and no parent pointer is set.  The source is only read, never
written. -/
def extendOp (src : ResolverState) (extra : List (Key × FactorySpec)) :
    ResolverState × ResolverState :=
  (src,
    { factories := extra.foldl (fun m kv => setA kv.1 kv.2 m) src.factories,
      cache := src.cache, warnings := [], initCalled := src.initCalled,
      deferOnInit := false, resolving := [], depGraph := [], nextId := 0,
      runLog := [], initLog := [], destroyLog := [] })

/-- A factory with no special behaviour: singleton, accesses `ds`. -/
def singletonFactory (ds : List Key) : FactorySpec :=
  { deps := ds, transient := false, retUndefined := false, fThrows := false,
    hasInit := false, initThrows := false, hasDestroy := false, destroyThrows := false }

/-- A transient factory accessing `ds`. -/
def transientFactory (ds : List Key) : FactorySpec :=
  { singletonFactory ds with transient := true }

/-- A freshly constructed resolver over the given registry
(`createContainer`): everything empty, lazy init enabled. -/
def initialState (fs : List (Key × FactorySpec)) : ResolverState :=
  { factories := fs, cache := [], warnings := [], initCalled := [],
    deferOnInit := false, resolving := [], depGraph := [], nextId := 0,
    runLog := [], initLog := [], destroyLog := [] }

/-- The registered-key set the `ProviderNotFoundError` actually carries: the
`getAllRegisteredKeys` of the resolver that throws it, which is the topmost
ancestor of the chain (delegation walks upward before failing). -/
def rootRegistered : ResolverState → List ResolverState → List Key
  | s, [] => getAllRegisteredKeys s []
  | _, parent :: rest => rootRegistered parent rest

/-- The topmost ancestor of a resolver chain. -/
def lastResolver : ResolverState → List ResolverState → ResolverState
  | s, [] => s
  | _, parent :: rest => lastResolver parent rest

/-- Cache growth during resolution: entries are only appended, and every new
entry has a key that was neither cached nor mid-resolution before. -/
def CacheExt (s t : ResolverState) : Prop :=
  ∃ ext, t.cache = s.cache ++ ext ∧
    ∀ kv ∈ ext, ¬ kv.1 ∈ keysOfA s.cache ∧ ¬ kv.1 ∈ s.resolving

/-- The frame relation maintained by `resolve` on a resolver without a
parent: the registry, the deferred-init flag and the Resolving set are
restored; the cache only grows with fresh keys; in deferred-init mode
neither the init history nor the init-completed set changes; the
init-completed set only grows; and a key already marked init-completed is
never re-initialized (its count in the init history is unchanged). -/
def ExtR (s t : ResolverState) : Prop :=
  t.factories = s.factories ∧
  t.deferOnInit = s.deferOnInit ∧
  t.resolving = s.resolving ∧
  CacheExt s t ∧
  (s.deferOnInit = true → t.initLog = s.initLog ∧ t.initCalled = s.initCalled) ∧
  s.initCalled ⊆ t.initCalled ∧
  (∀ x ∈ s.initCalled, t.initLog.count x = s.initLog.count x)

/-- Total in-degree decrement a key receives while one whole queue is
processed: the occurrences of the key across the dependents lists of the
queue members. -/
def sumDec (dep : Key → List Key) (q : List Key) (x : Key) : Int :=
  (q.map (fun k => ((dep k).count x : Int))).sum

/-- Correct layering: every member of layer `i` has all its in-closure
dependencies in strictly earlier layers. -/
def GoodLayers (g : List (Key × List Key)) (keys : List Key) (acc : List (List Key)) : Prop :=
  ∀ i x, x ∈ acc.getD i [] → ∀ d ∈ inClosureDeps g keys x, ∃ j, j < i ∧ d ∈ acc.getD j []

/-- The keys whose teardown hook `dispose` invokes, in invocation order:
reverse cache-insertion order, restricted to instances carrying a hook
(failures do not remove later entries from this list). -/
def destroyedKeys (s : ResolverState) : List Key :=
  s.cache.reverse.filterMap (fun kv => if kv.2.hasDestroy = true then some kv.1 else none)

/-- The keys whose teardown hook throws during `dispose`, in invocation
order. -/
def failedDestroyKeys (s : ResolverState) : List Key :=
  s.cache.reverse.filterMap
    (fun kv => if kv.2.hasDestroy = true ∧ kv.2.destroyThrows = true then some kv.1 else none)

/-- The failure policy of `dispose`: no error completes normally, exactly
one is rethrown directly, two or more become one aggregate. -/
def disposeVerdict : List Key → Except DisposeError Unit
  | [] => Except.ok ()
  | [e] => Except.error (DisposeError.single e)
  | es => Except.error (DisposeError.aggregate es)

/-- A factory whose instance carries a synchronous `onInit` hook that
throws. -/
def throwingInitFactory : FactorySpec :=
  { singletonFactory [] with hasInit := true, initThrows := true }

/-- The diamond registry: `a` accesses `b` and `c`, both access `d`, all
singletons. -/
def diamondState : ResolverState := initialState
  [("a", singletonFactory ["b", "c"]), ("b", singletonFactory ["d"]),
   ("c", singletonFactory ["d"]), ("d", singletonFactory [])]

/-- A pre-resolved instance used to exercise the cached fast path. -/
def cachedInstance : Instance :=
  { id := 7, depIds := [], hasInit := false, initThrows := false,
    hasDestroy := false, destroyThrows := false }

/-- A resolver whose key `hit` is registered and already cached. -/
def cachedState : ResolverState :=
  { initialState [("hit", singletonFactory [])] with cache := [("hit", cachedInstance)] }

/-- A singleton `service` that accesses the transient `requestId` twice. -/
def c7state : ResolverState := initialState
  [("requestId", transientFactory []), ("service", singletonFactory ["requestId", "requestId"])]

/-- A child scope registering only `x`. -/
def c8childState : ResolverState := initialState [("x", singletonFactory [])]

/-- A root resolver registering only `z`. -/
def c8rootState : ResolverState := initialState [("z", singletonFactory [])]

/-- A registry whose only key has a throwing synchronous init hook. -/
def c9state : ResolverState := initialState [("k", throwingInitFactory)]

/-- `c9state` after its key has been marked init-completed once. -/
def c9markedState : ResolverState :=
  { c9state with initCalled := ["k"], initLog := ["k"] }

/-- A parent registering `p`, whose instance carries a (succeeding) init
hook. -/
def c3rootState : ResolverState :=
  initialState [("p", { singletonFactory [] with hasInit := true })]

/-- A child scope of `c3rootState` registering only `c`. -/
def c3childState : ResolverState := initialState [("c", singletonFactory [])]

end Inwire



namespace Inwire

theorem lookupA_setA_self {α : Type} (k : Key) (v : α) (m : List (Key × α)) :
    lookupA k (setA k v m) = some v := by
  induction m with
  | nil => simp [setA, lookupA]
  | cons kv rest ih =>
    by_cases h : k = kv.1
    · simp [setA, h, lookupA]
    · simp [setA, h, lookupA, ih]

theorem lookupA_none_iff {α : Type} (k : Key) (m : List (Key × α)) :
    lookupA k m = none ↔ ¬ k ∈ keysOfA m := by
  induction m with
  | nil => simp [lookupA, keysOfA]
  | cons kv rest ih =>
    by_cases h : k = kv.1
    · simp [lookupA, h, keysOfA]
    · simp [lookupA, h, keysOfA, ih]

theorem setA_append {α : Type} (k : Key) (v : α) (m : List (Key × α))
    (h : ¬ k ∈ keysOfA m) : setA k v m = m ++ [(k, v)] := by
  induction m with
  | nil => simp [setA]
  | cons kv rest ih =>
    simp [keysOfA] at h
    simp [setA, h.1, ih (by simp [keysOfA, h.2])]

theorem keysOfA_append {α : Type} (m m' : List (Key × α)) :
    keysOfA (m ++ m') = keysOfA m ++ keysOfA m' := by
  simp [keysOfA]

theorem ExtR_refl (s : ResolverState) : ExtR s s :=
  ⟨rfl, rfl, rfl, ⟨[], by simp, by simp⟩, fun _ => ⟨rfl, rfl⟩, fun _ h => h, fun _ _ => rfl⟩

theorem ExtR_trans {a b c : ResolverState} (h1 : ExtR a b) (h2 : ExtR b c) : ExtR a c := by
  obtain ⟨f1, d1, r1, ⟨e1, ce1, fr1⟩, il1, sub1, cnt1⟩ := h1
  obtain ⟨f2, d2, r2, ⟨e2, ce2, fr2⟩, il2, sub2, cnt2⟩ := h2
  refine ⟨f2.trans f1, d2.trans d1, r2.trans r1, ⟨e1 ++ e2, ?_, ?_⟩, ?_, ?_, ?_⟩
  · rw [ce2, ce1, List.append_assoc]
  · intro kv hkv
    rcases List.mem_append.mp hkv with h | h
    · exact fr1 kv h
    · have := fr2 kv h
      constructor
      · intro hc
        exact this.1 (by rw [ce1, keysOfA_append]; exact List.mem_append_left _ hc)
      · intro hc
        exact this.2 (by rw [r1]; exact hc)
  · intro hd
    have hb := il1 hd
    have hc := il2 (by rw [d1]; exact hd)
    exact ⟨hc.1.trans hb.1, hc.2.trans hb.2⟩
  · exact fun x hx => sub2 (sub1 hx)
  · intro x hx
    rw [cnt2 x (sub1 hx), cnt1 x hx]

theorem ExtR_terminal (s s1 t : ResolverState) (k : Key)
    (hk : ¬ k ∈ s.resolving)
    (h : ExtR { s with resolving := k :: s.resolving, runLog := s.runLog ++ [k] } s1)
    (hfa : t.factories = s1.factories)
    (hde : t.deferOnInit = s1.deferOnInit)
    (hre : t.resolving = s1.resolving.erase k)
    (hca : t.cache = s1.cache ∨
      (lookupA k s.cache = none ∧ ∃ inst, t.cache = setA k inst s1.cache))
    (hin : (t.initCalled = s1.initCalled ∧ t.initLog = s1.initLog) ∨
      (s.deferOnInit = false ∧ ¬ k ∈ s1.initCalled ∧
        t.initCalled = k :: s1.initCalled ∧ t.initLog = s1.initLog ++ [k])) :
    ExtR s t := by
  obtain ⟨f1, d1, r1, ⟨e1, ce1, fr1⟩, il1, sub1, cnt1⟩ := h
  simp only at f1 d1 r1 ce1 fr1 il1 sub1 cnt1
  have hknotin : ∀ kv ∈ e1, ¬ kv.1 ∈ keysOfA s.cache ∧ ¬ kv.1 ∈ s.resolving ∧ kv.1 ≠ k := by
    intro kv hkv
    have := fr1 kv hkv
    refine ⟨this.1, fun hc => this.2 (List.mem_cons_of_mem _ hc), fun hc => this.2 (by simp [hc])⟩
  refine ⟨hfa.trans f1, hde.trans d1, ?_, ?_, ?_, ?_, ?_⟩
  · rw [hre, r1, List.erase_cons_head]
  · rcases hca with hca | ⟨hnone, inst, hca⟩
    · exact ⟨e1, by rw [hca, ce1], fun kv hkv => ⟨(hknotin kv hkv).1, (hknotin kv hkv).2.1⟩⟩
    · have hkfresh : ¬ k ∈ keysOfA s1.cache := by
        rw [ce1, keysOfA_append]
        intro hmem
        rcases List.mem_append.mp hmem with hmem | hmem
        · exact (lookupA_none_iff k s.cache).mp hnone hmem
        · obtain ⟨kv, hkv, hkveq⟩ := List.mem_map.mp hmem
          exact (hknotin kv hkv).2.2 hkveq
      refine ⟨e1 ++ [(k, inst)], ?_, ?_⟩
      · rw [hca, setA_append k inst s1.cache hkfresh, ce1, List.append_assoc]
      · intro kv hkv
        rcases List.mem_append.mp hkv with hkv | hkv
        · exact ⟨(hknotin kv hkv).1, (hknotin kv hkv).2.1⟩
        · simp only [List.mem_singleton] at hkv
          subst hkv
          exact ⟨(lookupA_none_iff k s.cache).mp hnone, hk⟩
  · intro hd
    rcases hin with ⟨hic, hil⟩ | ⟨hdf, _, _, _⟩
    · have := il1 (by simpa using hd)
      exact ⟨hil.trans this.1, hic.trans this.2⟩
    · rw [hd] at hdf; cases hdf
  · rcases hin with ⟨hic, _⟩ | ⟨_, _, hic, _⟩
    · rw [hic]; exact sub1
    · rw [hic]; exact fun x hx => List.mem_cons_of_mem _ (sub1 hx)
  · intro x hx
    rcases hin with ⟨_, hil⟩ | ⟨_, hnk, _, hil⟩
    · rw [hil]; exact cnt1 x hx
    · rw [hil, List.count_append]
      have hxk : x ≠ k := fun hc => hnk (hc ▸ sub1 hx)
      simp [List.count_singleton, hxk, cnt1 x hx]

theorem foldl_depStep_error
    (rv : ResolverState → List ResolverState → Key → List Key →
      (ResolverState × List ResolverState) × Except ResolveError Instance)
    (cchain : List Key) (ds : List Key)
    (st : ResolverState × List ResolverState) (e : ResolveError) :
    ds.foldl (depStep rv cchain) (st, Except.error e) = (st, Except.error e) := by
  induction ds with
  | nil => rfl
  | cons d ds ih => simp [depStep, ih]

theorem resolve_root_ext : ∀ (fuel : Nat) (s : ResolverState) (k : Key) (ch : List Key),
    (resolve fuel s [] k ch).1.2 = [] ∧ ExtR s (resolve fuel s [] k ch).1.1 := by
  intro fuel
  induction fuel with
  | zero => intro s k ch; exact ⟨rfl, ExtR_refl s⟩
  | succ fuel ih =>
    have hstep : ∀ (cchain ds : List Key) (s : ResolverState) (ids : List Nat),
        (ds.foldl (depStep (fun s' anc' d cc => resolve fuel s' anc' d cc) cchain)
          ((s, ([] : List ResolverState)), Except.ok ids)).1.2 = []
        ∧ ExtR s (ds.foldl (depStep (fun s' anc' d cc => resolve fuel s' anc' d cc) cchain)
          ((s, []), Except.ok ids)).1.1 := by
      intro cchain ds
      induction ds with
      | nil => intro s ids; exact ⟨rfl, ExtR_refl s⟩
      | cons d ds ihd =>
        intro s ids
        obtain ⟨h2, hP⟩ := ih s d cchain
        have hr1 : (resolve fuel s [] d cchain).1 = ((resolve fuel s [] d cchain).1.1, []) := by
          conv_lhs => rw [show (resolve fuel s [] d cchain).1
            = ((resolve fuel s [] d cchain).1.1, (resolve fuel s [] d cchain).1.2) from rfl]
          rw [h2]
        simp only [List.foldl_cons, depStep]
        cases hres : (resolve fuel s [] d cchain).2 with
        | ok inst =>
          dsimp only
          rw [hr1]
          obtain ⟨ha, hb⟩ := ihd (resolve fuel s [] d cchain).1.1 (ids ++ [inst.id])
          exact ⟨ha, ExtR_trans hP hb⟩
        | error e =>
          dsimp only
          rw [foldl_depStep_error]
          exact ⟨h2, hP⟩
    intro s k ch
    simp only [resolve]
    cases hfac : lookupA k s.factories with
    | none => exact ⟨rfl, ExtR_refl s⟩
    | some f =>
      dsimp only
      by_cases hcc : f.transient = false ∧ (lookupA k s.cache).isSome = true
      · rw [if_pos hcc]
        exact ⟨rfl, ExtR_refl s⟩
      · rw [if_neg hcc]
        by_cases hcyc : k ∈ s.resolving
        · rw [if_pos hcyc]
          exact ⟨rfl, ExtR_refl s⟩
        · rw [if_neg hcyc]
          generalize hFdef : f.deps.foldl
            (depStep (fun s' anc' d cc => resolve fuel s' anc' d cc) (ch ++ [k]))
            (({ s with resolving := k :: s.resolving, runLog := s.runLog ++ [k] },
              ([] : List ResolverState)), Except.ok ([] : List Nat)) = F
          obtain ⟨h2, hP⟩ := hstep (ch ++ [k]) f.deps
            { s with resolving := k :: s.resolving, runLog := s.runLog ++ [k] } []
          rw [hFdef] at h2 hP
          have hF : F = ((F.1.1, []), F.2) := by
            conv_lhs => rw [show F = ((F.1.1, F.1.2), F.2) from rfl]
            rw [h2]
          rw [hF]
          cases hF2 : F.2 with
          | error e =>
            exact ⟨rfl, ExtR_terminal s F.1.1 _ k hcyc hP rfl rfl rfl (Or.inl rfl)
              (Or.inl ⟨rfl, rfl⟩)⟩
          | ok ids =>
            dsimp only
            by_cases hth : f.fThrows = true
            · rw [if_pos hth]
              exact ⟨rfl, ExtR_terminal s F.1.1 _ k hcyc hP rfl rfl rfl (Or.inl rfl)
                (Or.inl ⟨rfl, rfl⟩)⟩
            · rw [if_neg hth]
              by_cases hu : f.retUndefined = true
              · rw [if_pos hu]
                exact ⟨rfl, ExtR_terminal s F.1.1 _ k hcyc hP rfl rfl rfl (Or.inl rfl)
                  (Or.inl ⟨rfl, rfl⟩)⟩
              · rw [if_neg hu]
                by_cases htr : f.transient = true
                · rw [if_pos htr, if_pos htr]
                  dsimp only
                  by_cases hinit : F.1.1.deferOnInit = false ∧ ¬ k ∈ F.1.1.initCalled
                      ∧ f.hasInit = true
                  · rw [if_pos hinit]
                    have hsdf : s.deferOnInit = false := by
                      have := hP.2.1
                      simp only at this
                      rw [← this]; exact hinit.1
                    by_cases hthrow : f.initThrows = true
                    · rw [if_pos hthrow]
                      exact ⟨rfl, ExtR_terminal s F.1.1 _ k hcyc hP rfl rfl rfl (Or.inl rfl)
                        (Or.inr ⟨hsdf, hinit.2.1, rfl, rfl⟩)⟩
                    · rw [if_neg hthrow]
                      exact ⟨rfl, ExtR_terminal s F.1.1 _ k hcyc hP rfl rfl rfl (Or.inl rfl)
                        (Or.inr ⟨hsdf, hinit.2.1, rfl, rfl⟩)⟩
                  · rw [if_neg hinit]
                    exact ⟨rfl, ExtR_terminal s F.1.1 _ k hcyc hP rfl rfl rfl (Or.inl rfl)
                      (Or.inl ⟨rfl, rfl⟩)⟩
                · rw [if_neg htr, if_neg htr]
                  dsimp only
                  have ht' : f.transient = false := by
                    cases hft : f.transient
                    · rfl
                    · exact absurd hft htr
                  have hnone : lookupA k s.cache = none := by
                    rcases hs : lookupA k s.cache with _ | v
                    · rfl
                    · exact absurd ⟨ht', by rw [hs]; rfl⟩ hcc
                  by_cases hinit : F.1.1.deferOnInit = false ∧ ¬ k ∈ F.1.1.initCalled
                      ∧ f.hasInit = true
                  · rw [if_pos hinit]
                    have hsdf : s.deferOnInit = false := by
                      have := hP.2.1
                      simp only at this
                      rw [← this]; exact hinit.1
                    by_cases hthrow : f.initThrows = true
                    · rw [if_pos hthrow]
                      exact ⟨rfl, ExtR_terminal s F.1.1 _ k hcyc hP rfl rfl rfl
                        (Or.inr ⟨hnone, _, rfl⟩) (Or.inr ⟨hsdf, hinit.2.1, rfl, rfl⟩)⟩
                    · rw [if_neg hthrow]
                      exact ⟨rfl, ExtR_terminal s F.1.1 _ k hcyc hP rfl rfl rfl
                        (Or.inr ⟨hnone, _, rfl⟩) (Or.inr ⟨hsdf, hinit.2.1, rfl, rfl⟩)⟩
                  · rw [if_neg hinit]
                    exact ⟨rfl, ExtR_terminal s F.1.1 _ k hcyc hP rfl rfl rfl
                      (Or.inr ⟨hnone, _, rfl⟩) (Or.inl ⟨rfl, rfl⟩)⟩

end Inwire

namespace Inwire

theorem resolveSeq_root_ext : ∀ (ks : List Key) (fuel : Nat) (s : ResolverState),
    (resolveSeq fuel ks s []).1.2 = [] ∧ ExtR s (resolveSeq fuel ks s []).1.1 := by
  intro ks
  induction ks with
  | nil => intro fuel s; exact ⟨rfl, ExtR_refl s⟩
  | cons k ks ih =>
    intro fuel s
    obtain ⟨h2, hP⟩ := resolve_root_ext fuel s k []
    simp only [resolveSeq]
    cases hres : (resolve fuel s [] k []).2 with
    | error e =>
      exact ⟨h2, hP⟩
    | ok inst =>
      dsimp only
      rw [h2]
      obtain ⟨ha, hb⟩ := ih fuel (resolve fuel s [] k []).1.1
      exact ⟨ha, ExtR_trans hP hb⟩

theorem filter_restore (c ext : List (Key × Instance))
    (h : ∀ kv ∈ ext, ¬ kv.1 ∈ keysOfA c) :
    (c ++ ext).filter (fun kv => decide (kv.1 ∈ keysOfA c)) = c := by
  rw [List.filter_append]
  have h1 : c.filter (fun kv => decide (kv.1 ∈ keysOfA c)) = c := by
    apply List.filter_eq_self.mpr
    intro kv hkv
    simp only [decide_eq_true_eq]
    exact List.mem_map_of_mem Prod.fst hkv
  have h2 : ext.filter (fun kv => decide (kv.1 ∈ keysOfA c)) = [] := by
    apply List.filter_eq_nil_iff.mpr
    intro kv hkv
    simpa using h kv hkv
  rw [h1, h2, List.append_nil]

theorem preload_resolve_failure_atomic (fuel : Nat) (s : ResolverState) (ks : List Key)
    (e : ResolveError)
    (hfail : (resolveSeq fuel (if ks = [] then keysOfA s.factories else ks)
      { s with deferOnInit := true } []).2 = Except.error e) :
    (preload fuel s [] ks).2 = Except.error (PreloadError.resolveFailed e)
    ∧ (preload fuel s [] ks).1.1.cache = s.cache
    ∧ (preload fuel s [] ks).1.1.initLog = s.initLog
    ∧ (preload fuel s [] ks).1.1.initCalled = s.initCalled
    ∧ (preload fuel s [] ks).1.1.deferOnInit = false
    ∧ (preload fuel s [] ks).1.2 = [] := by
  obtain ⟨h2, hP⟩ := resolveSeq_root_ext (if ks = [] then keysOfA s.factories else ks) fuel
    { s with deferOnInit := true }
  obtain ⟨hfa, hdf, hre, ⟨ext, hce, hfr⟩, hil, hsub, hcnt⟩ := hP
  simp only at hdf hce hfr hil
  have hsplit : resolveSeq fuel (if ks = [] then keysOfA s.factories else ks)
      { s with deferOnInit := true } []
      = (((resolveSeq fuel (if ks = [] then keysOfA s.factories else ks)
          { s with deferOnInit := true } []).1.1, []), Except.error e) := by
    conv_lhs => rw [show (resolveSeq fuel (if ks = [] then keysOfA s.factories else ks)
      { s with deferOnInit := true } [])
      = (((resolveSeq fuel (if ks = [] then keysOfA s.factories else ks)
          { s with deferOnInit := true } []).1.1,
        (resolveSeq fuel (if ks = [] then keysOfA s.factories else ks)
          { s with deferOnInit := true } []).1.2),
        (resolveSeq fuel (if ks = [] then keysOfA s.factories else ks)
          { s with deferOnInit := true } []).2) from rfl]
    rw [h2, hfail]
  have hinitlog := hil trivial
  simp only [preload]
  rw [hsplit]
  refine ⟨rfl, ?_, hinitlog.1, hinitlog.2, rfl, rfl⟩
  dsimp only
  rw [hce]
  exact filter_restore s.cache ext (fun kv hkv => (hfr kv hkv).1)

theorem callOnInit_marked (s : ResolverState) (k : Key) (h : k ∈ s.initCalled) :
    callOnInit s k = (s, Except.ok ()) := by
  simp [callOnInit, h]

theorem callOnInit_mark_on_success (s : ResolverState) (k : Key) (inst : Instance)
    (hc : lookupA k s.cache = some inst)
    (hok : (callOnInit s k).2 = Except.ok ()) : k ∈ (callOnInit s k).1.initCalled := by
  by_cases h : k ∈ s.initCalled
  · simp only [callOnInit, if_pos h]
    exact h
  · by_cases hi : inst.hasInit = true
    · by_cases ht : inst.initThrows = true
      · exfalso
        simp [callOnInit, h, hc, hi, ht] at hok
      · simp [callOnInit, h, hc, hi, ht]
    · simp [callOnInit, h, hc, hi]

end Inwire

namespace Inwire

theorem sumDec_nil (dep : Key → List Key) (x : Key) : sumDec dep [] x = 0 := rfl

theorem sumDec_cons (dep : Key → List Key) (k : Key) (q : List Key) (x : Key) :
    sumDec dep (k :: q) x = ((dep k).count x : Int) + sumDec dep q x := by
  simp [sumDec]

theorem sumDec_nonneg (dep : Key → List Key) (q : List Key) (x : Key) :
    0 ≤ sumDec dep q x := by
  apply List.sum_nonneg
  intro a ha
  obtain ⟨k, _, hk⟩ := List.mem_map.mp ha
  rw [← hk]
  exact Int.natCast_nonneg _

theorem count_cons_self_int (d : Key) (ds : List Key) :
    (((d :: ds).count d : Nat) : Int) = (ds.count d : Int) + 1 := by
  rw [List.count_cons_self]; push_cast; ring

theorem count_cons_ne_int (x d : Key) (ds : List Key) (h : x ≠ d) :
    (((d :: ds).count x : Nat) : Int) = (ds.count x : Int) := by
  rw [List.count_cons_of_ne h]

theorem updF_self (f : Key → Int) (k : Key) (v : Int) : updF f k v k = v := by
  simp [updF]

theorem updF_ne (f : Key → Int) (k : Key) (v : Int) (x : Key) (h : x ≠ k) :
    updF f k v x = f x := by
  simp [updF, h]

theorem decStep_spec (L : List Key) : ∀ (inDeg : Key → Int) (nx : List Key),
    (∀ x ∈ nx, inDeg x ≤ 0) → nx.Nodup →
    (∀ x, (decStep inDeg nx L).1 x = inDeg x - L.count x)
    ∧ (∀ x, x ∈ (decStep inDeg nx L).2 ↔ x ∈ nx ∨ (1 ≤ inDeg x ∧ inDeg x ≤ (L.count x : Int)))
    ∧ (decStep inDeg nx L).2.Nodup
    ∧ (∀ x ∈ (decStep inDeg nx L).2, (decStep inDeg nx L).1 x ≤ 0) := by
  induction L with
  | nil =>
    intro inDeg nx hnx hnd
    refine ⟨fun x => by simp [decStep], fun x => ?_, hnd, hnx⟩
    simp only [decStep, List.count_nil]
    constructor
    · exact fun h => Or.inl h
    · rintro (h | ⟨h1, h2⟩)
      · exact h
      · simp only [Nat.cast_zero] at h2
        omega
  | cons d ds ih =>
    intro inDeg nx hnx hnd
    simp only [decStep]
    by_cases hv : inDeg d - 1 = 0
    · rw [if_pos hv]
      have hdnx : ¬ d ∈ nx := fun hc => by have := hnx d hc; omega
      obtain ⟨ih1, ih2, ih3, ih4⟩ := ih (updF inDeg d (inDeg d - 1)) (nx ++ [d])
        (by
          intro x hx
          rcases List.mem_append.mp hx with hx | hx
          · by_cases hxd : x = d
            · subst hxd; rw [updF_self]; omega
            · rw [updF_ne _ _ _ _ hxd]; exact hnx x hx
          · simp only [List.mem_singleton] at hx
            subst hx
            rw [updF_self]; omega)
        (by simp [List.nodup_append, hnd, hdnx])
      refine ⟨?_, ?_, ih3, ih4⟩
      · intro x
        rw [ih1 x]
        by_cases hxd : x = d
        · subst hxd
          rw [updF_self, count_cons_self_int]
          omega
        · rw [updF_ne _ _ _ _ hxd, count_cons_ne_int x d ds hxd]
      · intro x
        rw [ih2 x]
        by_cases hxd : x = d
        · subst hxd
          rw [count_cons_self_int]
          constructor
          · intro _
            right
            have := Int.natCast_nonneg (ds.count x)
            omega
          · intro _
            left
            simp
        · rw [count_cons_ne_int x d ds hxd]
          have hmem : x ∈ nx ++ [d] ↔ x ∈ nx := by simp [hxd]
          rw [hmem, updF_ne _ _ _ _ hxd]
    · rw [if_neg hv]
      obtain ⟨ih1, ih2, ih3, ih4⟩ := ih (updF inDeg d (inDeg d - 1)) nx
        (by
          intro x hx
          by_cases hxd : x = d
          · subst hxd; have := hnx _ hx; rw [updF_self]; omega
          · rw [updF_ne _ _ _ _ hxd]; exact hnx x hx)
        hnd
      refine ⟨?_, ?_, ih3, ih4⟩
      · intro x
        rw [ih1 x]
        by_cases hxd : x = d
        · subst hxd
          rw [updF_self, count_cons_self_int]
          omega
        · rw [updF_ne _ _ _ _ hxd, count_cons_ne_int x d ds hxd]
      · intro x
        rw [ih2 x]
        by_cases hxd : x = d
        · subst hxd
          rw [count_cons_self_int, updF_self]
          apply or_congr Iff.rfl
          constructor
          · intro ⟨h1, h2⟩; constructor <;> omega
          · intro ⟨h1, h2⟩; constructor <;> omega
        · rw [count_cons_ne_int x d ds hxd, updF_ne _ _ _ _ hxd]

end Inwire

namespace Inwire

theorem stepLevel_spec (dep : Key → List Key) (q : List Key) :
    ∀ (inDeg : Key → Int) (nx : List Key),
    (∀ x ∈ nx, inDeg x ≤ 0) → nx.Nodup →
    (∀ x, (stepLevel dep inDeg nx q).1 x = inDeg x - sumDec dep q x)
    ∧ (∀ x, x ∈ (stepLevel dep inDeg nx q).2 ↔ x ∈ nx ∨ (1 ≤ inDeg x ∧ inDeg x ≤ sumDec dep q x))
    ∧ (stepLevel dep inDeg nx q).2.Nodup
    ∧ (∀ x ∈ (stepLevel dep inDeg nx q).2, (stepLevel dep inDeg nx q).1 x ≤ 0) := by
  induction q with
  | nil =>
    intro inDeg nx hnx hnd
    refine ⟨fun x => by simp [stepLevel, sumDec_nil], fun x => ?_, hnd, hnx⟩
    simp only [stepLevel, sumDec_nil]
    constructor
    · exact fun h => Or.inl h
    · rintro (h | ⟨h1, h2⟩)
      · exact h
      · omega
  | cons k q ih =>
    intro inDeg nx hnx hnd
    simp only [stepLevel]
    obtain ⟨d1, d2, d3, d4⟩ := decStep_spec (dep k) inDeg nx hnx hnd
    obtain ⟨i1, i2, i3, i4⟩ := ih (decStep inDeg nx (dep k)).1 (decStep inDeg nx (dep k)).2 d4 d3
    refine ⟨?_, ?_, i3, i4⟩
    · intro x
      rw [i1 x, d1 x, sumDec_cons]
      omega
    · intro x
      rw [i2 x, d2 x, d1 x, sumDec_cons]
      have hc : (0 : Int) ≤ ((dep k).count x : Int) := Int.natCast_nonneg _
      have hs : (0 : Int) ≤ sumDec dep q x := sumDec_nonneg dep q x
      rw [or_assoc]
      apply or_congr Iff.rfl
      omega

theorem sum_map_ite (ks : List Key) (c : Key → Nat) (x : Key) (hnd : ks.Nodup) :
    ((ks.map (fun k => if x = k then c k else 0)).sum) = if x ∈ ks then c x else 0 := by
  induction ks with
  | nil => simp
  | cons k ks ih =>
    simp only [List.map_cons, List.sum_cons, List.mem_cons]
    have hnd' := hnd.of_cons
    rw [ih hnd']
    by_cases hxk : x = k
    · subst hxk
      have hxnot : ¬ x ∈ ks := (List.nodup_cons.mp hnd).1
      simp [hxnot]
    · simp [hxk]

theorem dependentsOf_count (g : List (Key × List Key)) (keys : List Key) (hknd : keys.Nodup)
    (d x : Key) :
    (dependentsOf g keys d).count x
      = if x ∈ keys then (inClosureDeps g keys x).count d else 0 := by
  rw [dependentsOf, List.count_flatten, List.map_map]
  have hmap : (List.map (List.count x ∘ fun k =>
        List.replicate ((inClosureDeps g keys k).count d) k) keys)
      = keys.map (fun k => if x = k then ((inClosureDeps g keys k).count d) else 0) := by
    apply List.map_congr_left
    intro k _
    simp only [Function.comp_apply, List.count_replicate]
    by_cases hxk : x = k
    · simp [hxk]
    · simp [hxk, Ne.symm hxk]
  rw [hmap, sum_map_ite keys _ x hknd]

end Inwire

namespace Inwire

theorem countP_cons_key (l : List Key) (k : Key) (q : List Key) (hk : ¬ k ∈ q) :
    l.countP (fun d => decide (d ∈ k :: q)) = l.count k + l.countP (fun d => decide (d ∈ q)) := by
  induction l with
  | nil => simp
  | cons a l ih =>
    rw [List.countP_cons, List.countP_cons, List.count_cons, ih]
    by_cases hak : a = k
    · subst hak
      simp [hk]
      omega
    · by_cases haq : a ∈ q
      · simp [hak, Ne.symm hak, haq]
        omega
      · simp [hak, Ne.symm hak, haq]

theorem countP_sum_over_nodup (l : List Key) : ∀ (q : List Key), q.Nodup →
    ((q.map (fun k => l.count k)).sum) = l.countP (fun d => decide (d ∈ q)) := by
  intro q
  induction q with
  | nil => simp
  | cons k q ih =>
    intro hnd
    obtain ⟨hk, hnd'⟩ := List.nodup_cons.mp hnd
    simp only [List.map_cons, List.sum_cons]
    rw [ih hnd', countP_cons_key l k q hk]

theorem sumDec_dependents (g : List (Key × List Key)) (keys : List Key) (hknd : keys.Nodup)
    (q : List Key) (hq : q.Nodup) (x : Key) (hx : x ∈ keys) :
    sumDec (dependentsOf g keys) q x
      = ((inClosureDeps g keys x).countP (fun d => decide (d ∈ q)) : Int) := by
  rw [sumDec]
  have hmap : q.map (fun k => (((dependentsOf g keys k).count x : Nat) : Int))
      = q.map (fun k => (((inClosureDeps g keys x).count k : Nat) : Int)) := by
    apply List.map_congr_left
    intro k _
    rw [dependentsOf_count g keys hknd k x, if_pos hx]
  rw [hmap, ← countP_sum_over_nodup (inClosureDeps g keys x) q hq,
    Nat.cast_list_sum, List.map_map]
  rfl

theorem sumDec_zero_of_not_mem (g : List (Key × List Key)) (keys : List Key)
    (hknd : keys.Nodup) (q : List Key) (x : Key) (hx : ¬ x ∈ keys) :
    sumDec (dependentsOf g keys) q x = 0 := by
  rw [sumDec]
  have hmap : q.map (fun k => (((dependentsOf g keys k).count x : Nat) : Int))
      = q.map (fun _ => (0 : Int)) := by
    apply List.map_congr_left
    intro k _
    rw [dependentsOf_count g keys hknd k x, if_neg hx]
    simp
  rw [hmap]
  simp

theorem countP_split (l : List Key) (p r : Key → Bool) :
    l.countP p = l.countP (fun d => p d && r d) + l.countP (fun d => p d && !r d) := by
  induction l with
  | nil => simp
  | cons a l ih =>
    simp only [List.countP_cons]
    cases hp : p a <;> cases hr : r a <;> simp [hp, hr, ih] <;> omega

theorem nodup_subset_length (l m : List Key) (hl : l.Nodup) (h : ∀ x ∈ l, x ∈ m) :
    l.length ≤ m.length := by
  classical
  calc l.length = l.toFinset.card := (List.toFinset_card_of_nodup hl).symm
    _ ≤ m.toFinset.card := Finset.card_le_card
        (fun x hx => List.mem_toFinset.mpr (h x (List.mem_toFinset.mp hx)))
    _ ≤ m.length := m.toFinset_card_le

theorem mem_flatten_getD (L : List (List Key)) (x : Key) :
    x ∈ L.flatten ↔ ∃ j, j < L.length ∧ x ∈ L.getD j [] := by
  induction L with
  | nil => simp
  | cons l L ih =>
    simp only [List.flatten_cons, List.mem_append, ih, List.length_cons]
    constructor
    · rintro (h | ⟨j, hj, hmem⟩)
      · exact ⟨0, by omega, h⟩
      · exact ⟨j + 1, by omega, hmem⟩
    · rintro ⟨j, hj, hmem⟩
      cases j with
      | zero => exact Or.inl hmem
      | succ j => exact Or.inr ⟨j, by omega, hmem⟩

end Inwire

namespace Inwire

theorem kahnLoop_master (g : List (Key × List Key)) (keys : List Key) (hknd : keys.Nodup) :
    ∀ (fuel : Nat) (inDeg : Key → Int) (q : List Key) (acc : List (List Key)),
    keys.length + 1 ≤ fuel + acc.flatten.length →
    (acc.flatten ++ q).Nodup →
    (∀ x ∈ acc.flatten ++ q, x ∈ keys) →
    (∀ x ∈ q, ∀ d ∈ inClosureDeps g keys x, d ∈ acc.flatten) →
    GoodLayers g keys acc →
    (∀ x ∈ keys, ¬ x ∈ acc.flatten → ¬ x ∈ q →
        inDeg x = ((inClosureDeps g keys x).countP (fun d => !decide (d ∈ acc.flatten)) : Int)
        ∧ 0 < (inClosureDeps g keys x).countP (fun d => !decide (d ∈ acc.flatten))) →
    (∀ x ∈ acc.flatten ++ q, inDeg x ≤ 0) →
    (∃ ext, kahnLoop (dependentsOf g keys) fuel inDeg q acc = acc ++ ext)
    ∧ (q ≠ [] → ∃ ext2, kahnLoop (dependentsOf g keys) fuel inDeg q acc = (acc ++ [q]) ++ ext2)
    ∧ (kahnLoop (dependentsOf g keys) fuel inDeg q acc).flatten.Nodup
    ∧ (∀ x ∈ (kahnLoop (dependentsOf g keys) fuel inDeg q acc).flatten, x ∈ keys)
    ∧ GoodLayers g keys (kahnLoop (dependentsOf g keys) fuel inDeg q acc)
    ∧ (∀ x ∈ acc.flatten ++ q, x ∈ (kahnLoop (dependentsOf g keys) fuel inDeg q acc).flatten) := by
  intro fuel
  induction fuel with
  | zero =>
    intro inDeg q acc hfuel hN hS hQ hG hE hZ
    exfalso
    have hsub : ∀ x ∈ acc.flatten, x ∈ keys := fun x hx => hS x (List.mem_append_left _ hx)
    have hnd : acc.flatten.Nodup := hN.of_append_left
    have := nodup_subset_length acc.flatten keys hnd hsub
    omega
  | succ fuel ih =>
    intro inDeg q acc hfuel hN hS hQ hG hE hZ
    by_cases hq : q = []
    · subst hq
      simp only [kahnLoop, if_pos rfl]
      have hndA : acc.flatten.Nodup := hN.of_append_left
      refine ⟨⟨[], by simp⟩, fun hc => absurd rfl hc, hndA,
        fun x hx => hS x (List.mem_append_left _ hx), hG, ?_⟩
      intro x hx
      rcases List.mem_append.mp hx with hx | hx
      · exact hx
      · cases hx
    · obtain ⟨SL1, SL2, SL3, SL4⟩ := stepLevel_spec (dependentsOf g keys) q inDeg []
        (by intro x hx; cases hx) List.nodup_nil
      simp only [List.not_mem_nil, false_or] at SL2
      have hqnd : q.Nodup := hN.of_append_right
      have hqk : ∀ k ∈ q, k ∈ keys := fun k hk => hS k (List.mem_append_right _ hk)
      have hdisjAQ : List.Disjoint acc.flatten q := List.disjoint_of_nodup_append hN
      have hr2keys : ∀ x ∈ (stepLevel (dependentsOf g keys) inDeg [] q).2, x ∈ keys := by
        intro x hx
        by_contra hxk
        have h1 := (SL2 x).mp hx
        rw [sumDec_zero_of_not_mem g keys hknd q x hxk] at h1
        omega
      have hr2fresh : ∀ x ∈ (stepLevel (dependentsOf g keys) inDeg [] q).2,
          ¬ x ∈ acc.flatten ++ q := by
        intro x hx hc
        have h1 := (SL2 x).mp hx
        have h2 := hZ x hc
        omega
      have hcnt : ∀ x ∈ keys, ¬ x ∈ acc.flatten → ¬ x ∈ q →
          ((inClosureDeps g keys x).countP (fun d => !decide (d ∈ acc.flatten))
            = (inClosureDeps g keys x).countP (fun d => decide (d ∈ q))
              + (inClosureDeps g keys x).countP
                  (fun d => !decide (d ∈ acc.flatten) && !decide (d ∈ q))) := by
        intro x _ _ _
        rw [countP_split (inClosureDeps g keys x)
          (fun d => !decide (d ∈ acc.flatten)) (fun d => decide (d ∈ q))]
        congr 1
        apply List.countP_congr
        intro d _
        by_cases hdq : d ∈ q
        · have hdA : ¬ d ∈ acc.flatten := fun hc => hdisjAQ hc hdq
          simp [hdq, hdA]
        · simp [hdq]
      have hnotA' : ∀ d : Key, (!decide (d ∈ (acc ++ [q]).flatten))
          = (!decide (d ∈ acc.flatten) && !decide (d ∈ q)) := by
        intro d
        by_cases h1 : d ∈ acc.flatten <;> by_cases h2 : d ∈ q <;>
          simp [h1, h2, List.flatten_append]
      -- invariants for the recursive call
      have hfuel' : keys.length + 1 ≤ fuel + (acc ++ [q]).flatten.length := by
        have : 1 ≤ q.length := List.length_pos.mpr hq
        simp only [List.flatten_append, List.flatten_cons, List.flatten_nil,
          List.append_nil, List.length_append]
        omega
      have hA' : (acc ++ [q]).flatten = acc.flatten ++ q := by
        simp [List.flatten_append]
      have hN' : ((acc ++ [q]).flatten
          ++ (stepLevel (dependentsOf g keys) inDeg [] q).2).Nodup := by
        rw [hA']
        exact List.Nodup.append hN SL3 (fun a ha hb => hr2fresh a hb ha)
      have hS' : ∀ x ∈ (acc ++ [q]).flatten
          ++ (stepLevel (dependentsOf g keys) inDeg [] q).2, x ∈ keys := by
        intro x hx
        rcases List.mem_append.mp hx with hx | hx
        · exact hS x (by rw [← hA']; exact hx)
        · exact hr2keys x hx
      have hQ' : ∀ x ∈ (stepLevel (dependentsOf g keys) inDeg [] q).2,
          ∀ d ∈ inClosureDeps g keys x, d ∈ (acc ++ [q]).flatten := by
        intro x hx d hd
        have hxkeys := hr2keys x hx
        have hxfresh := hr2fresh x hx
        have hxA : ¬ x ∈ acc.flatten := fun hc => hxfresh (List.mem_append_left _ hc)
        have hxq : ¬ x ∈ q := fun hc => hxfresh (List.mem_append_right _ hc)
        obtain ⟨hdeg, hpos⟩ := hE x hxkeys hxA hxq
        have h1 := (SL2 x).mp hx
        rw [sumDec_dependents g keys hknd q hqnd x hxkeys] at h1
        have hsplit := hcnt x hxkeys hxA hxq
        have hzero : (inClosureDeps g keys x).countP
            (fun d => !decide (d ∈ acc.flatten) && !decide (d ∈ q)) = 0 := by omega
        have := List.countP_eq_zero.mp hzero d hd
        rw [hA']
        simp only [Bool.and_eq_true, Bool.not_eq_true', decide_eq_false_iff_not,
          not_and, not_not] at this
        rcases Decidable.em (d ∈ acc.flatten) with h | h
        · exact List.mem_append_left _ h
        · exact List.mem_append_right _ (this h)
      have hG' : GoodLayers g keys (acc ++ [q]) := by
        intro i x hx d hd
        by_cases hi : i < acc.length
        · rw [List.getD_append _ _ _ _ hi] at hx
          obtain ⟨j, hj, hmem⟩ := hG i x hx d hd
          exact ⟨j, hj, by rw [List.getD_append _ _ _ _ (by omega)]; exact hmem⟩
        · by_cases hi2 : i = acc.length
          · subst hi2
            rw [List.getD_append_right _ _ _ _ (le_refl _), Nat.sub_self] at hx
            simp only [List.getD_cons_zero] at hx
            have hdA := hQ x hx d hd
            obtain ⟨j, hj, hmem⟩ := (mem_flatten_getD acc d).mp hdA
            exact ⟨j, hj, by rw [List.getD_append _ _ _ _ hj]; exact hmem⟩
          · exfalso
            have hlen : (acc ++ [q]).length ≤ i := by
              simp only [List.length_append, List.length_cons, List.length_nil]
              omega
            rw [List.getD_eq_default _ _ hlen] at hx
            cases hx
      have hE' : ∀ x ∈ keys, ¬ x ∈ (acc ++ [q]).flatten →
          ¬ x ∈ (stepLevel (dependentsOf g keys) inDeg [] q).2 →
          (stepLevel (dependentsOf g keys) inDeg [] q).1 x
            = ((inClosureDeps g keys x).countP
                (fun d => !decide (d ∈ (acc ++ [q]).flatten)) : Int)
          ∧ 0 < (inClosureDeps g keys x).countP
              (fun d => !decide (d ∈ (acc ++ [q]).flatten)) := by
        intro x hxkeys hxA' hxr2
        rw [hA'] at hxA'
        have hxA : ¬ x ∈ acc.flatten := fun hc => hxA' (List.mem_append_left _ hc)
        have hxq : ¬ x ∈ q := fun hc => hxA' (List.mem_append_right _ hc)
        obtain ⟨hdeg, hpos⟩ := hE x hxkeys hxA hxq
        have hsplit := hcnt x hxkeys hxA hxq
        have hcongr : (inClosureDeps g keys x).countP
            (fun d => !decide (d ∈ (acc ++ [q]).flatten))
            = (inClosureDeps g keys x).countP
              (fun d => !decide (d ∈ acc.flatten) && !decide (d ∈ q)) := by
          apply List.countP_congr
          intro d _
          rw [hnotA' d]
        have hsd := sumDec_dependents g keys hknd q hqnd x hxkeys
        have hnmem := (SL2 x)
        constructor
        · rw [SL1 x, hcongr, hdeg, hsd]
          omega
        · rw [hcongr]
          by_contra hc
          push_neg at hc
          have hzero : (inClosureDeps g keys x).countP
              (fun d => !decide (d ∈ acc.flatten) && !decide (d ∈ q)) = 0 := by omega
          have hx2 : x ∈ (stepLevel (dependentsOf g keys) inDeg [] q).2 := by
            rw [SL2 x, hsd]
            omega
          exact hxr2 hx2
      have hZ' : ∀ x ∈ (acc ++ [q]).flatten
          ++ (stepLevel (dependentsOf g keys) inDeg [] q).2,
          (stepLevel (dependentsOf g keys) inDeg [] q).1 x ≤ 0 := by
        intro x hx
        rcases List.mem_append.mp hx with hx | hx
        · rw [SL1 x]
          have h1 := hZ x (by rw [← hA']; exact hx)
          have h2 := sumDec_nonneg (dependentsOf g keys) q x
          omega
        · exact SL4 x hx
      obtain ⟨⟨ext, hext⟩, _, hnd', hsub', hG'', hcov⟩ :=
        ih (stepLevel (dependentsOf g keys) inDeg [] q).1
          (stepLevel (dependentsOf g keys) inDeg [] q).2 (acc ++ [q])
          hfuel' hN' hS' hQ' hG' hE' hZ'
      have hloop : kahnLoop (dependentsOf g keys) (fuel + 1) inDeg q acc
          = kahnLoop (dependentsOf g keys) fuel
            (stepLevel (dependentsOf g keys) inDeg [] q).1
            (stepLevel (dependentsOf g keys) inDeg [] q).2 (acc ++ [q]) := by
        simp only [kahnLoop, if_neg hq]
      rw [hloop]
      refine ⟨⟨[q] ++ ext, by rw [hext, List.append_assoc]⟩, fun _ => ⟨ext, hext⟩,
        hnd', hsub', hG'', ?_⟩
      intro x hx
      exact hcov x (List.mem_append_left _ (by rw [hA']; exact hx))

end Inwire

namespace Inwire

theorem foldl_add_length (L : List (List Key)) : ∀ n : Nat,
    L.foldl (fun n l => n + l.length) n = n + L.flatten.length := by
  induction L with
  | nil => intro n; simp
  | cons l L ih =>
    intro n
    simp only [List.foldl_cons, List.flatten_cons, List.length_append]
    rw [ih]
    omega

theorem q0_filter_congr (g : List (Key × List Key)) (keys : List Key) :
    keys.filter (fun k => decide (inDegInit g keys k = 0))
      = keys.filter (fun k => decide (inClosureDeps g keys k = [])) := by
  apply List.filter_congr
  intro k _
  simp only [decide_eq_decide, inDegInit]
  rw [show ((0 : Int) = ((0 : Nat) : Int)) by simp]
  rw [Int.natCast_inj]
  exact List.length_eq_zero

theorem kahnRun_spec (g : List (Key × List Key)) (keys : List Key) (hknd : keys.Nodup) :
    ((kahnRun g keys).getD 0 [] = keys.filter (fun k => decide (inClosureDeps g keys k = [])))
    ∧ (kahnRun g keys).flatten.Nodup
    ∧ (∀ x ∈ (kahnRun g keys).flatten, x ∈ keys)
    ∧ GoodLayers g keys (kahnRun g keys) := by
  have hq0nd : (keys.filter (fun k => decide (inDegInit g keys k = 0))).Nodup :=
    hknd.filter _
  have hq0mem : ∀ x ∈ keys.filter (fun k => decide (inDegInit g keys k = 0)), x ∈ keys :=
    fun x hx => (List.mem_filter.mp hx).1
  have hq0deg : ∀ x ∈ keys.filter (fun k => decide (inDegInit g keys k = 0)),
      inDegInit g keys x = 0 := by
    intro x hx
    have := (List.mem_filter.mp hx).2
    simpa using this
  have hq0nil : ∀ x ∈ keys.filter (fun k => decide (inDegInit g keys k = 0)),
      inClosureDeps g keys x = [] := by
    intro x hx
    have h := hq0deg x hx
    simp only [inDegInit] at h
    rw [show ((0 : Int) = ((0 : Nat) : Int)) by simp, Int.natCast_inj] at h
    exact List.length_eq_zero.mp h
  obtain ⟨⟨ext, hext⟩, h2, hnd, hsub, hG, hcov⟩ :=
    kahnLoop_master g keys hknd (keys.length + 1) (inDegInit g keys)
      (keys.filter (fun k => decide (inDegInit g keys k = 0))) []
      (by simp)
      (by simpa using hq0nd)
      (by simpa using hq0mem)
      (by
        intro x hx d hd
        rw [hq0nil x hx] at hd
        cases hd)
      (by intro i x hx; rw [List.getD_eq_default] at hx; cases hx; simp)
      (by
        intro x hx h1 h2
        have hcong : (inClosureDeps g keys x).countP (fun d => !decide (d ∈ ([] : List (List Key)).flatten))
            = (inClosureDeps g keys x).length := by
          simp
        constructor
        · rw [hcong]
          rfl
        · rw [hcong]
          by_contra hc
          push_neg at hc
          apply h2
          rw [List.mem_filter]
          refine ⟨hx, ?_⟩
          simp only [decide_eq_true_eq, inDegInit]
          omega)
      (by
        intro x hx
        rcases List.mem_append.mp hx with hx | hx
        · cases hx
        · rw [hq0deg x hx])
  refine ⟨?_, hnd, hsub, hG⟩
  by_cases hq0 : keys.filter (fun k => decide (inDegInit g keys k = 0)) = []
  · have hrun : kahnRun g keys = [] := by
      show kahnLoop (dependentsOf g keys) (keys.length + 1) (inDegInit g keys)
        (keys.filter (fun k => decide (inDegInit g keys k = 0))) [] = []
      rw [hq0]
      simp [kahnLoop]
    rw [hrun, ← q0_filter_congr, hq0]
    rfl
  · obtain ⟨ext2, hext2⟩ := h2 hq0
    rw [show kahnRun g keys
      = ([] ++ [keys.filter (fun k => decide (inDegInit g keys k = 0))]) ++ ext2 from hext2]
    simp only [List.nil_append, List.cons_append, List.getD_cons_zero]
    rw [q0_filter_congr]

theorem topologicalLevels_error_iff (g : List (Key × List Key)) (keys : List Key)
    (hknd : keys.Nodup) :
    ((∃ rem, topologicalLevels g keys = Except.error rem)
      ↔ ∃ k, k ∈ keys ∧ ¬ k ∈ (kahnRun g keys).flatten)
    ∧ (topologicalLevels g keys
        = Except.error (keys.filter (fun k => decide (¬ k ∈ (kahnRun g keys).flatten)))
      ∨ topologicalLevels g keys = Except.ok (kahnRun g keys)) := by
  obtain ⟨_, hnd, hsub, _⟩ := kahnRun_spec g keys hknd
  have hfold : (kahnRun g keys).foldl (fun n l => n + l.length) 0
      = (kahnRun g keys).flatten.length := by
    rw [foldl_add_length]
    omega
  by_cases hlt : (kahnRun g keys).flatten.length < keys.length
  · have herr : topologicalLevels g keys
        = Except.error (keys.filter (fun k => decide (¬ k ∈ (kahnRun g keys).flatten))) := by
      rw [topologicalLevels]
      simp only [hfold, if_pos hlt]
    constructor
    · constructor
      · intro _
        by_contra hc
        push_neg at hc
        have : ∀ x ∈ keys, x ∈ (kahnRun g keys).flatten := fun x hx => hc x hx
        have := nodup_subset_length keys (kahnRun g keys).flatten hknd this
        omega
      · intro _
        exact ⟨_, herr⟩
    · exact Or.inl herr
  · have hok : topologicalLevels g keys = Except.ok (kahnRun g keys) := by
      rw [topologicalLevels]
      simp only [hfold, if_neg hlt]
    constructor
    · constructor
      · rintro ⟨rem, hrem⟩
        rw [hok] at hrem
        cases hrem
      · rintro ⟨k, hk, hnot⟩
        exfalso
        have hss : ∀ x ∈ (kahnRun g keys).flatten, x ∈ keys.erase k := by
          intro x hx
          apply (List.mem_erase_of_ne ?_).mpr (hsub x hx)
          intro hc
          subst hc
          exact hnot hx
        have h1 := nodup_subset_length (kahnRun g keys).flatten (keys.erase k) hnd hss
        have h2 : (keys.erase k).length = keys.length - 1 := List.length_erase_of_mem hk
        have h3 : 0 < keys.length := List.length_pos.mpr (fun hc => by subst hc; cases hk)
        omega
    · exact Or.inr hok

end Inwire

namespace Inwire

theorem resolve_cached (fuel : Nat) (s : ResolverState) (anc : List ResolverState)
    (k : Key) (ch : List Key) (f : FactorySpec) (v : Instance)
    (hf : lookupA k s.factories = some f) (ht : f.transient = false)
    (hc : lookupA k s.cache = some v) :
    resolve (fuel + 1) s anc k ch = ((s, anc), Except.ok v) := by
  simp [resolve, hf, ht, hc]

theorem resolve_notFound (fuel : Nat) (s : ResolverState) (anc : List ResolverState)
    (k : Key) (ch : List Key)
    (h : ∀ t ∈ s :: anc, lookupA k t.factories = none)
    (hfuel : anc.length < fuel) :
    resolve fuel s anc k ch
      = ((s, anc), Except.error (ResolveError.notFound k ch (rootRegistered s anc))) := by
  induction anc generalizing s fuel with
  | nil =>
    match fuel, hfuel with
    | fuel' + 1, _ =>
      simp [resolve, h s (by simp), rootRegistered]
  | cons parent rest ih =>
    match fuel, hfuel with
    | fuel' + 1, hfuel =>
      have hp := ih fuel' parent (fun t ht => h t (List.mem_cons_of_mem s ht))
        (by simpa using hfuel)
      simp [resolve, h s (by simp), hp, rootRegistered]

theorem rootRegistered_eq_last (s : ResolverState) (anc : List ResolverState) :
    rootRegistered s anc = getAllRegisteredKeys (lastResolver s anc) [] := by
  induction anc generalizing s with
  | nil => rfl
  | cons parent rest ih => exact ih parent

theorem resolve_sync_init_throw (fuel : Nat) (s : ResolverState) (k : Key) (ch : List Key)
    (f : FactorySpec)
    (hf : lookupA k s.factories = some f)
    (hdeps : f.deps = []) (ht : f.transient = false) (hu : f.retUndefined = false)
    (hth : f.fThrows = false) (hhi : f.hasInit = true) (hit : f.initThrows = true)
    (hc : lookupA k s.cache = none) (hr : ¬ k ∈ s.resolving) (hic : ¬ k ∈ s.initCalled)
    (hd : s.deferOnInit = false) :
    resolve (fuel + 1) s [] k ch =
      (({ s with
            runLog := s.runLog ++ [k],
            nextId := s.nextId + 1,
            depGraph := setA k [] s.depGraph,
            cache := setA k
              { id := s.nextId, depIds := [], hasInit := true, initThrows := true,
                hasDestroy := f.hasDestroy, destroyThrows := f.destroyThrows } s.cache,
            initCalled := k :: s.initCalled,
            initLog := s.initLog ++ [k] }, []),
        Except.error (ResolveError.factoryFailure k (ch ++ [k]))) := by
  simp [resolve, hf, ht, hc, hr, hdeps, hth, hu, hhi, hit, hd, hic, List.erase_cons_head]

theorem disposeLoop_spec : ∀ (entries : List (Key × Instance)) (s : ResolverState),
    disposeLoop entries s
      = ({ s with
            destroyLog := s.destroyLog ++ entries.filterMap
              (fun kv => if kv.2.hasDestroy = true then some kv.1 else none) },
         entries.filterMap
            (fun kv => if kv.2.hasDestroy = true ∧ kv.2.destroyThrows = true
              then some kv.1 else none)) := by
  intro entries
  induction entries with
  | nil => intro s; simp [disposeLoop]
  | cons kv rest ih =>
    intro s
    by_cases hd : kv.2.hasDestroy = true
    · by_cases ht : kv.2.destroyThrows = true
      · simp [disposeLoop, hd, ht, ih]
      · simp [disposeLoop, hd, ht, ih]
    · simp [disposeLoop, hd, ih]

end Inwire

namespace Inwire

/-- C1: on an acyclic registry, repeated `resolve` of a singleton key returns
the identical cached value without re-invoking any factory (the cached fast
path returns the stored instance and leaves the whole state, including the
factory-run history, untouched), and in the diamond registry (`a` accesses
`b` and `c`, both access `d`) resolving `a` runs every factory exactly once
— `d`'s runs once, and the instances stored for `b` and `c` both hold the
identity of the single cached `d` instance; a second `resolve` of `a`
returns the same value and the same state. -/
theorem c1_singleton_cached_diamond :
    (∀ (fuel : Nat) (s : ResolverState) (anc : List ResolverState) (k : Key) (ch : List Key)
      (f : FactorySpec) (v : Instance),
      lookupA k s.factories = some f → f.transient = false → lookupA k s.cache = some v →
      resolve (fuel + 1) s anc k ch = ((s, anc), Except.ok v))
    ∧ (resolve 10 diamondState [] "a" []).1.1.runLog = ["a", "b", "d", "c"]
    ∧ ((lookupA "b" (resolve 10 diamondState [] "a" []).1.1.cache).map Instance.depIds
        = (lookupA "d" (resolve 10 diamondState [] "a" []).1.1.cache).map (fun i => [i.id]))
    ∧ ((lookupA "c" (resolve 10 diamondState [] "a" []).1.1.cache).map Instance.depIds
        = (lookupA "d" (resolve 10 diamondState [] "a" []).1.1.cache).map (fun i => [i.id]))
    ∧ resolve 10 (resolve 10 diamondState [] "a" []).1.1 [] "a" []
        = (((resolve 10 diamondState [] "a" []).1.1, []),
            (resolve 10 diamondState [] "a" []).2) := by
  refine ⟨?_, by decide, by decide, by decide, by decide⟩
  intro fuel s anc k ch f v hf ht hc
  exact resolve_cached fuel s anc k ch f v hf ht hc

theorem c1_witness :
    resolve 1 cachedState [] "hit" [] = ((cachedState, []), Except.ok cachedInstance) :=
  c1_singleton_cached_diamond.1 0 cachedState [] "hit" [] (singletonFactory []) cachedInstance
    (by decide) (by decide) (by decide)

/-- C2: for a direct cycle a→b→a, a self-cycle a→a and an indirect cycle
a→b→c→a, `resolve` of the entry key fails with the Circular kind, and the
chain carried by the failure lists every member of the cycle in traversal
order. -/
theorem c2_circular_chain (a b c : Key) (hab : a ≠ b) (hac : a ≠ c) (hbc : b ≠ c) :
    (∀ fuel : Nat,
      (resolve (fuel + 3)
        (initialState [(a, singletonFactory [b]), (b, singletonFactory [a])]) [] a []).2
      = Except.error (ResolveError.circular a [a, b]))
    ∧ (∀ fuel : Nat,
      (resolve (fuel + 2) (initialState [(a, singletonFactory [a])]) [] a []).2
      = Except.error (ResolveError.circular a [a]))
    ∧ (∀ fuel : Nat,
      (resolve (fuel + 4)
        (initialState [(a, singletonFactory [b]), (b, singletonFactory [c]),
          (c, singletonFactory [a])]) [] a []).2
      = Except.error (ResolveError.circular a [a, b, c])) := by
  refine ⟨fun fuel => ?_, fun fuel => ?_, fun fuel => ?_⟩
  · simp [resolve, depStep, initialState, singletonFactory, lookupA, hab, Ne.symm hab]
  · simp [resolve, depStep, initialState, singletonFactory, lookupA]
  · simp [resolve, depStep, initialState, singletonFactory, lookupA, hab, Ne.symm hab,
      hac, Ne.symm hac, hbc, Ne.symm hbc]

theorem c2_witness :
    (resolve 3 (initialState [("a", singletonFactory ["b"]), ("b", singletonFactory ["a"])])
      [] "a" []).2 = Except.error (ResolveError.circular "a" ["a", "b"]) :=
  (c2_circular_chain "a" "b" "c" (by decide) (by decide) (by decide)).1 0

/-- C4: `dispose` invokes the teardown hook of every cached instance that
has one in exact reverse cache-insertion order (the invocation history grows
by `destroyedKeys`, which ignores failures, so a throwing hook never
prevents later teardowns); afterwards the cache, the init-completed set, the
dependency graph and the warnings are cleared; no failure completes
normally, exactly one failure is rethrown directly, and two or more become
one aggregate failure. -/
theorem c4_dispose_reverse_resilient_clear (s : ResolverState) :
    (dispose s).1.destroyLog = s.destroyLog ++ destroyedKeys s
    ∧ (dispose s).1.cache = []
    ∧ (dispose s).1.initCalled = []
    ∧ (dispose s).1.depGraph = []
    ∧ (dispose s).1.warnings = []
    ∧ (dispose s).2 = disposeVerdict (failedDestroyKeys s) := by
  have h := disposeLoop_spec s.cache.reverse s
  simp only [dispose, h, destroyedKeys, failedDestroyKeys]
  cases hE : s.cache.reverse.filterMap
      (fun kv => if kv.2.hasDestroy = true ∧ kv.2.destroyThrows = true
        then some kv.1 else none) with
  | nil => exact ⟨rfl, rfl, rfl, rfl, rfl, rfl⟩
  | cons e es =>
    cases es with
    | nil => exact ⟨rfl, rfl, rfl, rfl, rfl, rfl⟩
    | cons e2 es2 => exact ⟨rfl, rfl, rfl, rfl, rfl, rfl⟩

/-- C5: `scope` and `extend` never mutate the source resolver — they return
the source state unchanged, the scoped child starts with exactly the extra
registry and an empty cache, the extended resolver's cache is the snapshot
of the source's — and a key registered only in the derived container is
unreachable from the source: resolving it on the source chain fails with
NotFound. -/
theorem c5_scope_extend_frame (src : ResolverState) (anc : List ResolverState)
    (extra : List (Key × FactorySpec)) :
    (scopeOp src extra).1 = src
    ∧ (extendOp src extra).1 = src
    ∧ (scopeOp src extra).2.factories = extra
    ∧ (scopeOp src extra).2.cache = []
    ∧ (extendOp src extra).2.cache = src.cache
    ∧ (extendOp src extra).2.initCalled = src.initCalled
    ∧ (∀ (k : Key) (fuel : Nat) (ch : List Key),
        k ∈ keysOfA extra →
        (∀ t ∈ src :: anc, lookupA k t.factories = none) →
        anc.length < fuel →
        resolve fuel src anc k ch
          = ((src, anc), Except.error (ResolveError.notFound k ch (rootRegistered src anc)))) := by
  refine ⟨rfl, rfl, rfl, rfl, rfl, rfl, ?_⟩
  intro k fuel ch _ h hfuel
  exact resolve_notFound fuel src anc k ch h hfuel

theorem c5_witness :
    (scopeOp c8rootState [("w", singletonFactory [])]).1 = c8rootState
    ∧ (extendOp c8rootState [("w", singletonFactory [])]).1 = c8rootState
    ∧ resolve 1 c8rootState [] "w" []
      = ((c8rootState, []), Except.error (ResolveError.notFound "w" [] ["z"])) := by
  obtain ⟨h1, h2, _, _, _, _, h7⟩ :=
    c5_scope_extend_frame c8rootState [] [("w", singletonFactory [])]
  exact ⟨h1, h2, h7 "w" 1 [] (by decide) (by decide) (by decide)⟩

end Inwire

namespace Inwire

/-- C3 counterexample: a preload on a scoped resolver whose resolution phase
fails (key `nope` is nowhere registered) nevertheless runs an init hook — the
key `p` delegates to the parent, whose resolve is not in deferred-init mode,
so `p`'s hook fires (the parent's init history becomes `[p]`) and `p` stays
in the parent's cache; the claim "no initialization hook is run by that
call" is therefore false as stated. -/
theorem c3_counterexample :
    (preload 5 c3childState [c3rootState] ["p", "nope"]).2
      = Except.error (PreloadError.resolveFailed (ResolveError.notFound "nope" [] ["p"]))
    ∧ ((preload 5 c3childState [c3rootState] ["p", "nope"]).1.2.map ResolverState.initLog)
      = [["p"]]
    ∧ ((preload 5 c3childState [c3rootState] ["p", "nope"]).1.2.map
        (fun t => keysOfA t.cache)) = [["p"]]
    ∧ c3rootState.initLog = [] := by
  exact ⟨by decide, by decide, by decide, rfl⟩

/-- C3 (amended): on a resolver without a parent, a preload whose initial
resolution phase fails evicts every cache entry created during the call (the
cache is restored exactly), propagates the failure, runs no initialization
hook (the init history and the init-completed set are unchanged), and leaves
deferred-init mode off.  (With a parent, hooks of parent-delegated keys may
still run, because deferred-init mode is set only on the resolver itself —
see the counterexample.) -/
theorem c3_preload_failure_restored (fuel : Nat) (s : ResolverState) (ks : List Key)
    (e : ResolveError)
    (hfail : (resolveSeq fuel (if ks = [] then keysOfA s.factories else ks)
      { s with deferOnInit := true } []).2 = Except.error e) :
    (preload fuel s [] ks).2 = Except.error (PreloadError.resolveFailed e)
    ∧ (preload fuel s [] ks).1.1.cache = s.cache
    ∧ (preload fuel s [] ks).1.1.initLog = s.initLog
    ∧ (preload fuel s [] ks).1.1.initCalled = s.initCalled
    ∧ (preload fuel s [] ks).1.1.deferOnInit = false
    ∧ (preload fuel s [] ks).1.2 = [] :=
  preload_resolve_failure_atomic fuel s ks e hfail

theorem c3_witness :
    (preload 1 (initialState []) [] ["missing"]).2
      = Except.error (PreloadError.resolveFailed (ResolveError.notFound "missing" [] []))
    ∧ (preload 1 (initialState []) [] ["missing"]).1.1.cache = (initialState []).cache
    ∧ (preload 1 (initialState []) [] ["missing"]).1.1.initLog = (initialState []).initLog
    ∧ (preload 1 (initialState []) [] ["missing"]).1.1.initCalled
      = (initialState []).initCalled
    ∧ (preload 1 (initialState []) [] ["missing"]).1.1.deferOnInit = false
    ∧ (preload 1 (initialState []) [] ["missing"]).1.2 = [] :=
  c3_preload_failure_restored 1 (initialState []) ["missing"]
    (ResolveError.notFound "missing" [] []) (by decide)

/-- C6: for every dependency graph and (duplicate-free) closure key set, the
Kahn layering computed by `topologicalLevels` places in layer 0 exactly the
closure members with zero in-closure dependency occurrences, places every
other placed member in a layer strictly greater than all layers of its
in-closure dependencies, and returns the incomplete-topological-sort error
exactly when some closure member is placed in no layer (carrying those
unplaced members); otherwise it returns the layering itself. -/
theorem c6_topological_layering (g : List (Key × List Key)) (keys : List Key)
    (hknd : keys.Nodup) :
    ((kahnRun g keys).getD 0 []
      = keys.filter (fun k => decide (inClosureDeps g keys k = [])))
    ∧ (∀ i x, x ∈ (kahnRun g keys).getD i [] → ∀ d ∈ inClosureDeps g keys x,
        ∃ j, j < i ∧ d ∈ (kahnRun g keys).getD j [])
    ∧ ((∃ rem, topologicalLevels g keys = Except.error rem)
        ↔ ∃ k, k ∈ keys ∧ ¬ k ∈ (kahnRun g keys).flatten)
    ∧ (topologicalLevels g keys
        = Except.error (keys.filter (fun k => decide (¬ k ∈ (kahnRun g keys).flatten)))
      ∨ topologicalLevels g keys = Except.ok (kahnRun g keys)) := by
  obtain ⟨h0, _, _, hG⟩ := kahnRun_spec g keys hknd
  obtain ⟨hiff, hcases⟩ := topologicalLevels_error_iff g keys hknd
  exact ⟨h0, hG, hiff, hcases⟩

theorem c6_witness :
    topologicalLevels
        [("api", ["db", "cache"]), ("db", ["config"]), ("cache", ["config"]), ("config", [])]
        ["api", "db", "cache", "config"]
      = Except.error (["api", "db", "cache", "config"].filter (fun k => decide (¬ k ∈
          (kahnRun [("api", ["db", "cache"]), ("db", ["config"]), ("cache", ["config"]),
            ("config", [])] ["api", "db", "cache", "config"]).flatten)))
    ∨ topologicalLevels
        [("api", ["db", "cache"]), ("db", ["config"]), ("cache", ["config"]), ("config", [])]
        ["api", "db", "cache", "config"]
      = Except.ok (kahnRun
          [("api", ["db", "cache"]), ("db", ["config"]), ("cache", ["config"]), ("config", [])]
          ["api", "db", "cache", "config"]) :=
  (c6_topological_layering
    [("api", ["db", "cache"]), ("db", ["config"]), ("cache", ["config"]), ("config", [])]
    ["api", "db", "cache", "config"] (by decide)).2.2.2

/-- C7 counterexample: a singleton (`service`) whose factory accesses the
same transient dependency (`requestId`) twice receives two scope-mismatch
warnings for that one (singleton, transient) pair, not exactly one as the
claim states. -/
theorem c7_counterexample :
    (resolve 3 c7state [] "service" []).1.1.warnings
      = [Warning.scopeMismatch "service" "requestId",
          Warning.scopeMismatch "service" "requestId"] := by
  decide

/-- C7 (amended): a singleton resolution emits one scope-mismatch warning
per recorded access of a transient dependency — a pair accessed n times
yields n warnings, hence exactly one when the dependency is accessed once —
while singleton-on-singleton and transient-on-transient accesses yield no
warnings at all. -/
theorem c7_warning_per_access (x t : Key) (hxt : x ≠ t) :
    (∀ fuel : Nat,
      (resolve (fuel + 2)
        (initialState [(t, transientFactory []), (x, singletonFactory [t, t])]) [] x
        []).1.1.warnings
      = [Warning.scopeMismatch x t, Warning.scopeMismatch x t])
    ∧ (∀ fuel : Nat,
      (resolve (fuel + 2)
        (initialState [(t, transientFactory []), (x, singletonFactory [t])]) [] x
        []).1.1.warnings
      = [Warning.scopeMismatch x t])
    ∧ (∀ fuel : Nat,
      (resolve (fuel + 2)
        (initialState [(t, singletonFactory []), (x, singletonFactory [t, t])]) [] x
        []).1.1.warnings = [])
    ∧ (∀ fuel : Nat,
      (resolve (fuel + 2)
        (initialState [(t, transientFactory []), (x, transientFactory [t])]) [] x
        []).1.1.warnings = []) := by
  refine ⟨fun fuel => ?_, fun fuel => ?_, fun fuel => ?_, fun fuel => ?_⟩
  · simp [resolve, depStep, initialState, singletonFactory, transientFactory, lookupA,
      getFactoryChain, hxt, Ne.symm hxt]
  · simp [resolve, depStep, initialState, singletonFactory, transientFactory, lookupA,
      getFactoryChain, hxt, Ne.symm hxt]
  · simp [resolve, depStep, initialState, singletonFactory, lookupA, getFactoryChain,
      hxt, Ne.symm hxt]
  · simp [resolve, depStep, initialState, singletonFactory, transientFactory, lookupA,
      getFactoryChain, hxt, Ne.symm hxt]

theorem c7_witness :
    (resolve 2 (initialState [("r", transientFactory []), ("s", singletonFactory ["r"])])
      [] "s" []).1.1.warnings = [Warning.scopeMismatch "s" "r"] :=
  (c7_warning_per_access "s" "r" (by decide)).2.1 0

/-- C8 counterexample: resolving the unregistered key `y` on a child scope
that registers `x` over a root that registers `z` fails with NotFound
carrying only the root's registered keys `[z]` — the child's own key `x` is
missing, so the failure does not carry the union of registered keys across
the scope chain as the claim states. -/
theorem c8_counterexample :
    "x" ∈ keysOfA c8childState.factories
    ∧ resolve 2 c8childState [c8rootState] "y" []
      = ((c8childState, [c8rootState]),
          Except.error (ResolveError.notFound "y" [] ["z"]))
    ∧ ¬ ("x" : Key) ∈ (["z"] : List Key) := by
  exact ⟨by decide, by decide, by decide⟩

/-- C8 (amended): for a key with no provider anywhere in the scope chain,
`resolve` fails with NotFound carrying the full resolution chain and the
registered keys of the resolver that throws — the topmost ancestor, whose
`getAllRegisteredKeys` never includes keys registered only in descendant
scopes. -/
theorem c8_notfound_root_registry (s : ResolverState) (anc : List ResolverState) (k : Key)
    (ch : List Key) (fuel : Nat)
    (h : ∀ t ∈ s :: anc, lookupA k t.factories = none)
    (hfuel : anc.length < fuel) :
    resolve fuel s anc k ch
      = ((s, anc), Except.error (ResolveError.notFound k ch (rootRegistered s anc)))
    ∧ rootRegistered s anc = getAllRegisteredKeys (lastResolver s anc) [] :=
  ⟨resolve_notFound fuel s anc k ch h hfuel, rootRegistered_eq_last s anc⟩

theorem c8_witness :
    resolve 2 c8childState [c8rootState] "y" []
      = ((c8childState, [c8rootState]),
          Except.error (ResolveError.notFound "y" []
            (rootRegistered c8childState [c8rootState])))
    ∧ rootRegistered c8childState [c8rootState]
      = getAllRegisteredKeys (lastResolver c8childState [c8rootState]) [] :=
  c8_notfound_root_registry c8childState [c8rootState] "y" [] 2 (by decide) (by decide)

end Inwire

namespace Inwire

/-- C9 counterexample: a key whose synchronous init hook throws during
preload's initialization phase is not marked init-completed (`callOnInit`
marks only after the hook succeeds), so a second preload of the same key
invokes the hook again — after two preload calls the init history is
`[k, k]`, refuting "runs at most once ... including when an earlier run of
the hook failed". -/
theorem c9_counterexample :
    (preload 5 c9state [] ["k"]).2 = Except.error (PreloadError.initFailed "k")
    ∧ (preload 5 c9state [] ["k"]).1.1.initLog = ["k"]
    ∧ (preload 5 (preload 5 c9state [] ["k"]).1.1 [] ["k"]).1.1.initLog = ["k", "k"] := by
  exact ⟨by decide, by decide, by decide⟩

/-- C9 (amended): once a key is in the init-completed set, neither lazy
`resolve` (on a parentless resolver) nor `callOnInit` ever invokes its hook
again — its count in the init history is unchanged and `callOnInit` is a
no-op; the lazy resolve path marks completion before invoking (so even a
failed synchronous run never repeats), and `callOnInit` marks completion on
every successful run of a cached key.  Only a hook that throws inside
`callOnInit` (preload's init phase) escapes the guard and may run again in
a later preload — see the counterexample. -/
theorem c9_init_once_guarded :
    (∀ (fuel : Nat) (s : ResolverState) (k : Key) (ch : List Key) (x : Key),
      x ∈ s.initCalled →
      (resolve fuel s [] k ch).1.1.initLog.count x = s.initLog.count x)
    ∧ (∀ (s : ResolverState) (k : Key), k ∈ s.initCalled →
        callOnInit s k = (s, Except.ok ()))
    ∧ (∀ (s : ResolverState) (k : Key) (inst : Instance),
        lookupA k s.cache = some inst → (callOnInit s k).2 = Except.ok () →
        k ∈ (callOnInit s k).1.initCalled) := by
  refine ⟨?_, callOnInit_marked, callOnInit_mark_on_success⟩
  intro fuel s k ch x hx
  exact (resolve_root_ext fuel s k ch).2.2.2.2.2.2.2 x hx

theorem c9_witness :
    (resolve 3 c9markedState [] "k" []).1.1.initLog.count "k"
      = c9markedState.initLog.count "k"
    ∧ callOnInit c9markedState "k" = (c9markedState, Except.ok ()) :=
  ⟨c9_init_once_guarded.1 3 c9markedState "k" [] "k" (by decide),
    c9_init_once_guarded.2.1 c9markedState "k" (by decide)⟩

/-- C10: resolving a singleton key whose factory returns an instance with a
synchronous init hook that throws fails with FactoryFailure (the hook's
error is wrapped, carrying the chain extended by the key), yet the instance
is stored in the cache and the key's (empty) dependency list is recorded in
the dependency graph, so a subsequent resolve of the key returns the cached
instance without error and without changing the state — resolution is not
atomic on a synchronous init-hook failure. -/
theorem c10_sync_init_throw_nonatomic (fuel fuel2 : Nat) (s : ResolverState) (k : Key)
    (ch ch2 : List Key) (f : FactorySpec)
    (hf : lookupA k s.factories = some f)
    (hdeps : f.deps = []) (ht : f.transient = false) (hu : f.retUndefined = false)
    (hth : f.fThrows = false) (hhi : f.hasInit = true) (hit : f.initThrows = true)
    (hc : lookupA k s.cache = none) (hr : ¬ k ∈ s.resolving) (hic : ¬ k ∈ s.initCalled)
    (hd : s.deferOnInit = false) :
    (resolve (fuel + 1) s [] k ch).2
      = Except.error (ResolveError.factoryFailure k (ch ++ [k]))
    ∧ lookupA k (resolve (fuel + 1) s [] k ch).1.1.cache
      = some ⟨s.nextId, [], true, true, f.hasDestroy, f.destroyThrows⟩
    ∧ lookupA k (resolve (fuel + 1) s [] k ch).1.1.depGraph = some []
    ∧ resolve (fuel2 + 1) (resolve (fuel + 1) s [] k ch).1.1 [] k ch2
      = (((resolve (fuel + 1) s [] k ch).1.1, []),
          Except.ok ⟨s.nextId, [], true, true, f.hasDestroy, f.destroyThrows⟩) := by
  have hmain := resolve_sync_init_throw fuel s k ch f hf hdeps ht hu hth hhi hit hc hr hic hd
  refine ⟨by rw [hmain], ?_, ?_, ?_⟩
  · rw [hmain]
    exact lookupA_setA_self k _ _
  · rw [hmain]
    exact lookupA_setA_self k _ _
  · rw [hmain]
    exact resolve_cached fuel2 _ [] k ch2 f _ hf ht (lookupA_setA_self k _ _)

theorem c10_witness :
    (resolve 1 c9state [] "k" []).2
      = Except.error (ResolveError.factoryFailure "k" ["k"])
    ∧ lookupA "k" (resolve 1 c9state [] "k" []).1.1.cache
      = some ⟨0, [], true, true, false, false⟩
    ∧ lookupA "k" (resolve 1 c9state [] "k" []).1.1.depGraph = some []
    ∧ resolve 1 (resolve 1 c9state [] "k" []).1.1 [] "k" []
      = (((resolve 1 c9state [] "k" []).1.1, []),
          Except.ok ⟨0, [], true, true, false, false⟩) :=
  c10_sync_init_throw_nonatomic 0 0 c9state "k" [] [] throwingInitFactory
    (by decide) (by decide) (by decide) (by decide) (by decide) (by decide) (by decide)
    (by decide) (by decide) (by decide) (by decide)

end Inwire
